import Mathlib

set_option linter.unusedSectionVars false

/-!
# Verification of the CART cache (`src/include/Cache.h`)

Shallow embedding of the CART (Clock with Adaptive Replacement and Temporal
filtering) cache implementation from `Cache.h`, repository `tridemax/CART`.

Modelling decisions, mirrored against the source:

* `CLOCKElement` (the node shared by the resident clock lists T1/T2 and the
  ghost lists B1/B2) becomes `Entry`.  The C++ `VALUE*` field `page` is
  modelled as `Option V` (`none` = null pointer).
* The resident index `m_T1T2map` and the ghost index `m_B1B2map` share their
  nodes with the corresponding lists in C++ (the maps store pointers /
  iterators into the lists).  At the boundaries of every public operation the
  resident map holds exactly the keys of `T1 ++ T2` and the ghost map exactly
  the keys of `B1 ++ B2`, so both are modelled as derived views of the lists.
* The usage map `m_usage` (C++: keyed by a Murmur3 hash of
  `(std::hash(key), value pointer)`) is modelled as a total function
  `K → Option V → Nat`, i.e. hash collisions are not modelled; an absent row
  is represented by the count `0` (`IncUsage` on an absent row inserts `1`,
  which coincides with bumping `0`; `DecUsage` erases the row on the
  `1 → 0` transition, which coincides with writing `0`).
* C++ `int` fields (`m_p`, `m_q`, `m_numShort`, `m_numLong`, `m_B1ListSize`,
  `m_B2ListSize`) become `Int` (list sizes are kept as list lengths);
  `size_t` counters become `Nat`.  The handful of mixed signed/unsigned
  comparisons in the source are noted at their definitions; on the values the
  algorithm actually reaches (all the quantities involved are non-negative)
  the `Int` reading agrees with the C++ semantics.
* The concurrency shell (per-key accessors, the policy mutex, the
  `waitForLast` spin loop of `DecUsage`) is sequentialised: every public
  operation is one atomic state transition.
-/

namespace CART

/-- `CLOCKElement` of `Cache.h`: `pageKey`, `page` (a `VALUE*`, possibly
null), `referenceBit`, `longBit` (`false` = Short, `true` = Long) and
`firstList` (`true` = the element belongs to T1/B1, `false` = T2/B2). -/
structure Entry (K V : Type) where
  pageKey : K
  page : Option V
  referenceBit : Bool
  longBit : Bool
  firstList : Bool
  deriving Repr, DecidableEq

/-- Cache configuration: `m_maxNumElements` and `m_maxUsedMemory`
(`0` means the corresponding limit is unset). -/
structure Config where
  maxNumElements : Nat
  maxUsedMemory : Nat
  deriving Repr, DecidableEq

/-- The `ICacheControl` interface: `CacheAcquireValue` (null return modelled
as `none`) and `CacheGetValueSize` (the C++ function receives the raw
pointer, so it is modelled on `Option V`). -/
structure Iface (K V : Type) where
  acquire : K → Option V
  getValueSize : Option V → Nat

/-- The mutable state of one `Cache` instance: the clock queues `m_T1Queue`,
`m_T2Queue`, the ghost lists `m_B1List`, `m_B2List` (front of the Lean list =
front of the deque / `push_front` end of the `std::list`), the adaptive
parameters `m_p`, `m_q`, the counters `m_numShort`, `m_numLong`,
`m_usedMemory`, and the usage map `m_usage`. -/
structure CState (K V : Type) where
  T1 : List (Entry K V)
  T2 : List (Entry K V)
  B1 : List (Entry K V)
  B2 : List (Entry K V)
  p : Int
  q : Int
  nS : Int
  nL : Int
  usedMemory : Nat
  usage : K → Option V → Nat

/-- The state of a freshly constructed (or cleared) cache: `Clear()` resets
`p = q = nS = nL = usedMemory = 0` and empties every list and map. -/
def initState (K V : Type) : CState K V :=
  { T1 := [], T2 := [], B1 := [], B2 := [], p := 0, q := 0, nS := 0, nL := 0,
    usedMemory := 0, usage := fun _ _ => 0 }

variable {K V : Type} [DecidableEq K] [DecidableEq V]

/-- Resident lookup: the view of `m_T1T2map` as the keyed union of the two
clock queues (the C++ map stores pointers to the very list nodes). -/
def rFind (s : CState K V) (key : K) : Option (Entry K V) :=
  (s.T1 ++ s.T2).find? (fun e => e.pageKey = key)

/-- Ghost lookup: the view of `m_B1B2map` as the keyed union of the two
ghost lists. -/
def gFind (s : CState K V) (key : K) : Option (Entry K V) :=
  (s.B1 ++ s.B2).find? (fun e => e.pageKey = key)

/-- `IncUsage`: bump the usage row of `(key, value)` (insert-at-1 on a
missing row coincides with bumping a `0` count). -/
def incUsage (s : CState K V) (key : K) (value : Option V) : CState K V :=
  { s with usage := fun k v =>
      if k = key ∧ v = value then s.usage key value + 1 else s.usage k v }

/-- `DecUsage`: decrement the usage row of `(key, value)`; on the `1 → 0`
transition the row is erased and `CacheReleaseValue` fires (`true` returned).
A missing row (count `0`) trips the debug assertion and returns `false`
without mutating anything.  The `waitForLast` spin-wait is a concurrency
device with no sequential content and is not modelled. -/
def decUsage (s : CState K V) (key : K) (value : Option V) : CState K V × Bool :=
  if s.usage key value = 0 then (s, false)
  else
    ({ s with usage := fun k v =>
        if k = key ∧ v = value then s.usage key value - 1 else s.usage k v },
     s.usage key value = 1)

/-- `GetUsage`: read the usage row (missing row reads as `0`). -/
def getUsage (s : CState K V) (key : K) (value : Option V) : Nat :=
  s.usage key value

/-- `IsFull()`: a limit counts only when configured (non-zero). -/
def isFull (cfg : Config) (s : CState K V) : Prop :=
  (cfg.maxNumElements ≠ 0 ∧ s.T1.length + s.T2.length ≥ cfg.maxNumElements) ∨
  (cfg.maxUsedMemory ≠ 0 ∧ s.usedMemory ≥ cfg.maxUsedMemory)

instance (cfg : Config) (s : CState K V) : Decidable (isFull cfg s) := by
  unfold isFull; infer_instance

/-- The effective capacity captured at the start of `InternalInsert`
(lines 312–317): the local variable `maxNumElements` starts as
`m_maxNumElements` and is overwritten with `|T1| + |T2|` when `IsFull()`
holds.  Every later use of capacity in the insertion (`q` updates of both
sweeps, the history-replacement threshold, both `p` adaptations and the `q`
adaptation of the B2 ghost hit) reads this value. -/
def effCapacity (cfg : Config) (s : CState K V) : Nat :=
  if isFull cfg s then s.T1.length + s.T2.length else cfg.maxNumElements

/-- One pass of the T2 head sweep (`while (!m_T2Queue.empty() &&
m_T2Queue.front()->referenceBit)`): the head of T2 moves to the tail of T1
with its reference bit cleared and `firstList` set, and if afterwards
`|T2| + |B2| + |T1| - nS ≥ c` then `q := min (q+1) (2c - |T1|)`.  The loop
pops one element of T2 per iteration, so `|T2|` steps of fuel always
suffice; the fuel-zero branch is unreachable from `sweepT2`. -/
def sweepT2Go (c : Nat) : Nat → CState K V → CState K V
  | 0, s => s
  | fuel + 1, s =>
    match s.T2 with
    | [] => s
    | e :: rest =>
      if e.referenceBit then
        let T1' := s.T1 ++ [{ e with referenceBit := false, firstList := true }]
        let q' := if (rest.length : Int) + (s.B2.length : Int) + (T1'.length : Int) - s.nS ≥ (c : Int)
                  then min (s.q + 1) (2 * (c : Int) - (T1'.length : Int)) else s.q
        sweepT2Go c fuel { s with T1 := T1', T2 := rest, q := q' }
      else s

/-- The T2 head sweep of `InternalInsert` (lines 320–332). -/
def sweepT2 (c : Nat) (s : CState K V) : CState K V :=
  sweepT2Go c s.T2.length s

/-- Termination measure of the T1 head sweep: each rotation clears one
reference bit, each move to T2 shortens T1. -/
def sweepT1Measure (s : CState K V) : Nat :=
  2 * s.T1.length + s.T1.countP (fun e => e.referenceBit)

/-- The rotation step of the T1 head sweep (lines 337–351), for
`s.T1 = e :: rest` with `e.referenceBit`: the head rotates to the tail of T1
with its reference bit cleared, and is promoted from Short to Long
(`nS--; nL++`) when `|T1| ≥ min(p+1, |B1|)` and it was Short
(the source compares `m_T1Queue.size() >= (size_t)Min((unsigned)m_p + 1,
m_B1ListSize)` after the rotation, which preserves `|T1|`; `p ≥ 0` in every
reachable state, so the `(unsigned)` cast is the identity). -/
def sweepT1Rotate (s : CState K V) (e : Entry K V) (rest : List (Entry K V)) : CState K V :=
  let prom : Bool := decide ((rest.length : Int) + 1 ≥ min (s.p + 1) (s.B1.length : Int)) && !e.longBit
  { s with T1 := rest ++ [{ e with referenceBit := false, longBit := e.longBit || prom }],
           nS := if prom then s.nS - 1 else s.nS,
           nL := if prom then s.nL + 1 else s.nL }

/-- The move step of the T1 head sweep (lines 352–362), for
`s.T1 = e :: rest` with `e.longBit` and not `e.referenceBit`: the head moves
to the tail of T2 with `firstList` cleared, and
`q := max (q-1) (c - |T1|)` with `|T1|` the size after the removal. -/
def sweepT1Move (c : Nat) (s : CState K V) (e : Entry K V) (rest : List (Entry K V)) : CState K V :=
  { s with T1 := rest,
           T2 := s.T2 ++ [{ e with referenceBit := false, firstList := false }],
           q := max (s.q - 1) ((c : Int) - (rest.length : Int)) }

/-- Fueled T1 head sweep loop (`while (m_T1Queue.size() &&
(m_T1Queue.front()->longBit || m_T1Queue.front()->referenceBit))`).
`sweepT1Measure` steps of fuel always suffice. -/
def sweepT1Go (c : Nat) : Nat → CState K V → CState K V
  | 0, s => s
  | fuel + 1, s =>
    match s.T1 with
    | [] => s
    | e :: rest =>
      if e.longBit || e.referenceBit then
        if e.referenceBit then sweepT1Go c fuel (sweepT1Rotate s e rest)
        else sweepT1Go c fuel (sweepT1Move c s e rest)
      else s

/-- The T1 head sweep of `InternalInsert` (lines 334–363). -/
def sweepT1 (c : Nat) (s : CState K V) : CState K V :=
  sweepT1Go c (sweepT1Measure s) s

/-- The T2 half of the demotion step (lines 382–393 and 421–442): the first
T2 entry (from the head) whose usage count is at most 1 moves to the front
of B2 and `nL` is decremented; nothing happens when every T2 entry is
pinned. -/
def demoteT2half (I : Iface K V) (s : CState K V) : CState K V :=
  match s.T2.find? (fun e => s.usage e.pageKey e.page ≤ 1) with
  | some e =>
    { s with T2 := s.T2.eraseP (fun e' => s.usage e'.pageKey e'.page ≤ 1),
             nL := s.nL - 1,
             B2 := e :: s.B2,
             usage := (decUsage s e.pageKey e.page).1.usage,
             usedMemory := s.usedMemory - I.getValueSize e.page }
  | none => s

/-- The demotion step of `InternalInsert` (lines 365–442): if
`|T1| ≥ max(1, p)`, the first T1 entry (from the head) whose usage count is
at most 1 is demoted to the front of B1, decrementing `nS` or `nL` according
to its filter; otherwise the first such T2 entry is demoted to the front of
B2, decrementing `nL`.  Either demotion erases the key from the resident
index, drops the cache's refcount on the value and subtracts the value's
size from `usedMemory`.  If every entry is pinned (`usage > 1`), nothing is
demoted. -/
def demote (I : Iface K V) (s : CState K V) : CState K V :=
  match (if (s.T1.length : Int) ≥ max 1 s.p
         then s.T1.find? (fun e => s.usage e.pageKey e.page ≤ 1) else none) with
  | some e =>
    { s with T1 := s.T1.eraseP (fun e' => s.usage e'.pageKey e'.page ≤ 1),
             nS := if e.longBit then s.nS else s.nS - 1,
             nL := if e.longBit then s.nL - 1 else s.nL,
             B1 := e :: s.B1,
             usage := (decUsage s e.pageKey e.page).1.usage,
             usedMemory := s.usedMemory - I.getValueSize e.page }
  | none => demoteT2half I s

/-- The history-replacement (ghost trim) step of `InternalInsert`
(lines 444–466): when the inserted key has no ghost entry and
`|B1| + |B2| ≥ c + 1` (the source tests `m_B1B2map.size()`, which holds one
row per ghost entry), the bottom (back) page of B1 is dropped from history
if `|B1| > max(0, q)` or `|B2| == 0`, otherwise the bottom page of B2 is
dropped. -/
def ghostTrim (c : Nat) (key : K) (s : CState K V) : CState K V :=
  if gFind s key = none ∧ s.B1.length + s.B2.length ≥ c + 1 then
    if (s.B1.length : Int) > max 0 s.q ∨ s.B2.length = 0 then
      { s with B1 := s.B1.dropLast }
    else if s.B2.length > 0 then
      { s with B2 := s.B2.dropLast }
    else s
  else s

/-- The install / ghost re-reference step of `InternalInsert`
(lines 469–549).  History miss: a fresh entry `(key, value)` with reference
bit clear and filter Short is pushed to the tail of T1 and `nS` is bumped.
Ghost hit (the ghost node's `firstList` distinguishes B1 from B2): the node
is converted in place — value pulled in, reference bit cleared, filter set
to Long, pushed to the tail of T1, `nL` bumped, erased from its ghost list —
and `p` adapts (`min(p + max(1, nS/|B1|), c)` on a B1 hit,
`max(p - max(1, nL/|B2|), 0)` on a B2 hit; the source guards the divisions
with `m_B1ListSize ? ... : 0` / `m_B2ListSize ? ... : 0`).  A B2 hit
additionally sets `q := min(q+1, 2c - |T1|)` when
`|T2| + |B2| + |T1| - nS ≥ c`, with `|B2|` and `|T1|` read after the move. -/
def installEntry (c : Nat) (key : K) (value : Option V) (s : CState K V) : CState K V :=
  match gFind s key with
  | none =>
    { s with T1 := s.T1 ++ [⟨key, value, false, false, true⟩], nS := s.nS + 1 }
  | some e =>
    if e.firstList then
      { s with
        p := min (s.p + max 1 (if s.B1.length ≠ 0 then s.nS / (s.B1.length : Int) else 0)) (c : Int),
        T1 := s.T1 ++ [{ e with page := value, referenceBit := false, longBit := true }],
        nL := s.nL + 1,
        B1 := s.B1.eraseP (fun e' => e'.pageKey = key) }
    else
      let T1' : List (Entry K V) := s.T1 ++ [{ e with page := value, firstList := true,
                                                      referenceBit := false, longBit := true }]
      let B2' : List (Entry K V) := s.B2.eraseP (fun e' => e'.pageKey = key)
      let q' : Int :=
        if (s.T2.length : Int) + (B2'.length : Int) + (T1'.length : Int) - s.nS ≥ (c : Int)
        then min (s.q + 1) (2 * (c : Int) - (T1'.length : Int)) else s.q
      { s with
        p := max (s.p - max 1 (if s.B2.length ≠ 0 then s.nL / (s.B2.length : Int) else 0)) 0,
        T1 := T1', B2 := B2', nL := s.nL + 1, q := q' }

/-- A `Cache::Handle`: `some (key, value)` when it pins a value
(`m_cache` and `m_value` both set), `none` when empty (default-constructed,
moved-out, or holding a null value — all behaviourally inert). -/
def Handle (K V : Type) : Type := Option (K × V)

/-- `Handle(cache, key, value)`: bumps `usage[key, value]` exactly when the
value pointer is non-null. -/
def mkHandle (s : CState K V) (key : K) (value : Option V) : CState K V × Handle K V :=
  match value with
  | some v => (incUsage s key (some v), some (key, v))
  | none => (s, none)

/-- `Handle` copy construction (also `Duplicate()`): bumps
`usage[key, value]` when non-empty. -/
def handleCopy (s : CState K V) (h : Handle K V) : CState K V :=
  match h with
  | some (k, v) => incUsage s k (some v)
  | none => s

/-- `Handle::Release()` (run by the destructor, by move-out and before
reassignment): decrements `usage[key, value]` when non-empty.  The returned
flag is `isZero`; `assert(!isZero)` demands the handle not be the last
holder. -/
def handleRelease (s : CState K V) (h : Handle K V) : CState K V × Bool :=
  match h with
  | some (k, v) => decUsage s k (some v)
  | none => (s, false)

/-- The body of `InternalInsert` past the early resident-hit return, with
the value already resolved (lines 303–553): bump the usage row, capture the
effective capacity, run sweeps / demotion / ghost trim when `IsFull()`,
install the entry, grow `usedMemory`, return a handle. -/
def insertMiss (I : Iface K V) (cfg : Config) (s : CState K V) (key : K)
    (value : Option V) : CState K V × Handle K V :=
  let s1 := incUsage s key value
  let c := effCapacity cfg s1
  let s2 := if isFull cfg s1
            then ghostTrim c key (demote I (sweepT1 c (sweepT2 c s1)))
            else s1
  let s3 := installEntry c key value s2
  mkHandle { s3 with usedMemory := s3.usedMemory + I.getValueSize value } key value

/-- `Cache::InternalInsert` (lines 296–554).  If the key is already resident
the existing page is returned at once (lines 300–301); otherwise the value
is acquired from the loader when the caller supplied none and the miss body
runs. -/
def internalInsert (I : Iface K V) (cfg : Config) (s : CState K V) (key : K)
    (supplied : Option V) : CState K V × Handle K V :=
  match rFind s key with
  | some e => mkHandle s key e.page
  | none =>
    insertMiss I cfg s key (match supplied with
                            | some v => some v
                            | none => I.acquire key)

/-- The hit path of `FindOrCreate` writes `referenceBit = true` through the
shared node, i.e. into the clock list holding the key. -/
def setRefBit (s : CState K V) (key : K) : CState K V :=
  { s with
    T1 := s.T1.map (fun e => if e.pageKey = key then { e with referenceBit := true } else e),
    T2 := s.T2.map (fun e => if e.pageKey = key then { e with referenceBit := true } else e) }

/-- `Cache::FindOrCreate` (lines 201–214): on a hit, set the reference bit
and return a handle on the resident page; on a miss, run the insertion
protocol. -/
def findOrCreate (I : Iface K V) (cfg : Config) (s : CState K V) (key : K) :
    CState K V × Handle K V :=
  match rFind s key with
  | some e => mkHandle (setRefBit s key) key e.page
  | none => internalInsert I cfg s key none

/-- `Cache::IsInCache` (lines 226–233): return a handle on the resident
page without touching the reference bit, or an empty handle. -/
def isInCache (s : CState K V) (key : K) : CState K V × Handle K V :=
  match rFind s key with
  | some e => mkHandle s key e.page
  | none => (s, none)

/-- `Cache::InsertIntoCache` (lines 238–241); the C++ argument is a raw
`VALUE*`, a null argument makes `InternalInsert` call the loader. -/
def insertIntoCache (I : Iface K V) (cfg : Config) (s : CState K V) (key : K)
    (value : Option V) : CState K V × Handle K V :=
  internalInsert I cfg s key value

/-- `Cache::InternalRemove` (lines 557–612): a no-op when the key is not
resident; otherwise the entry is removed from T1 or T2 (according to its
`firstList` flag), `nS`/`nL` is decremented (by the entry's filter in the
T1 branch, unconditionally `nL` in the T2 branch), the cache's refcount is
dropped, the value's size is subtracted from `usedMemory` and the key erased
from the resident index.  No ghost entry is created. -/
def internalRemove (I : Iface K V) (s : CState K V) (key : K) : CState K V :=
  match rFind s key with
  | none => s
  | some e =>
    let s' :=
      if e.firstList then
        { s with T1 := s.T1.eraseP (fun e' => e'.pageKey = key),
                 nS := if e.longBit then s.nS else s.nS - 1,
                 nL := if e.longBit then s.nL - 1 else s.nL }
      else
        { s with T2 := s.T2.eraseP (fun e' => e'.pageKey = key),
                 nL := s.nL - 1 }
    { s' with usage := (decUsage s' e.pageKey e.page).1.usage,
              usedMemory := s'.usedMemory - I.getValueSize e.page }

/-- `Cache::Clear` (lines 252–286): every resident entry's cache refcount is
dropped (releasing the value once outstanding handles are gone), all four
lists and both indexes are emptied and the counters reset.  Usage rows still
held by outstanding handles survive. -/
def clear (s : CState K V) : CState K V :=
  let s' := (s.T1 ++ s.T2).foldl (fun st e => (decUsage st e.pageKey e.page).1) s
  { initState K V with usage := s'.usage }

/-- One client-visible operation; the `keep` flag says whether the returned
handle stays alive (pinning its value) or is released immediately. -/
inductive Op (K V : Type) where
  | findOrCreate (key : K) (keep : Bool)
  | isInCache (key : K) (keep : Bool)
  | insertIntoCache (key : K) (value : Option V) (keep : Bool)
  | removeFromCache (key : K)
  | clear

/-- Apply one operation, releasing the returned handle unless kept. -/
def applyOp (I : Iface K V) (cfg : Config) (s : CState K V) : Op K V → CState K V
  | .findOrCreate key keep =>
    let r := findOrCreate I cfg s key
    if keep then r.1 else (handleRelease r.1 r.2).1
  | .isInCache key keep =>
    let r := isInCache s key
    if keep then r.1 else (handleRelease r.1 r.2).1
  | .insertIntoCache key value keep =>
    let r := insertIntoCache I cfg s key value
    if keep then r.1 else (handleRelease r.1 r.2).1
  | .removeFromCache key => internalRemove I s key
  | .clear => clear s

/-- Run a sequence of operations from a freshly constructed cache. -/
def runOps (I : Iface K V) (cfg : Config) (ops : List (Op K V)) : CState K V :=
  ops.foldl (applyOp I cfg) (initState K V)

/-! ### Frame lemmas for the clock sweeps -/

theorem sweepT2Go_B1 (c fuel : Nat) (s : CState K V) :
    (sweepT2Go c fuel s).B1 = s.B1 := by
  induction fuel generalizing s with
  | zero => rfl
  | succ n ih => rw [sweepT2Go]; split
                 · rfl
                 · split
                   · exact ih _
                   · rfl

theorem sweepT2Go_B2 (c fuel : Nat) (s : CState K V) :
    (sweepT2Go c fuel s).B2 = s.B2 := by
  induction fuel generalizing s with
  | zero => rfl
  | succ n ih => rw [sweepT2Go]; split
                 · rfl
                 · split
                   · exact ih _
                   · rfl

theorem sweepT2Go_nS (c fuel : Nat) (s : CState K V) :
    (sweepT2Go c fuel s).nS = s.nS := by
  induction fuel generalizing s with
  | zero => rfl
  | succ n ih => rw [sweepT2Go]; split
                 · rfl
                 · split
                   · exact ih _
                   · rfl

theorem sweepT2Go_nL (c fuel : Nat) (s : CState K V) :
    (sweepT2Go c fuel s).nL = s.nL := by
  induction fuel generalizing s with
  | zero => rfl
  | succ n ih => rw [sweepT2Go]; split
                 · rfl
                 · split
                   · exact ih _
                   · rfl

theorem sweepT2Go_p (c fuel : Nat) (s : CState K V) :
    (sweepT2Go c fuel s).p = s.p := by
  induction fuel generalizing s with
  | zero => rfl
  | succ n ih => rw [sweepT2Go]; split
                 · rfl
                 · split
                   · exact ih _
                   · rfl

theorem sweepT2Go_usedMemory (c fuel : Nat) (s : CState K V) :
    (sweepT2Go c fuel s).usedMemory = s.usedMemory := by
  induction fuel generalizing s with
  | zero => rfl
  | succ n ih => rw [sweepT2Go]; split
                 · rfl
                 · split
                   · exact ih _
                   · rfl

theorem sweepT2Go_usage (c fuel : Nat) (s : CState K V) :
    (sweepT2Go c fuel s).usage = s.usage := by
  induction fuel generalizing s with
  | zero => rfl
  | succ n ih => rw [sweepT2Go]; split
                 · rfl
                 · split
                   · exact ih _
                   · rfl

theorem sweepT2Go_len (c fuel : Nat) (s : CState K V) :
    (sweepT2Go c fuel s).T1.length + (sweepT2Go c fuel s).T2.length
      = s.T1.length + s.T2.length := by
  induction fuel generalizing s with
  | zero => rfl
  | succ n ih =>
    rw [sweepT2Go]; split
    · rfl
    · rename_i e rest hT2
      split
      · rw [ih _]
        dsimp only
        rw [hT2]
        simp only [List.length_append, List.length_cons, List.length_nil]
        omega
      · rfl

theorem sweepT2Go_T1first (c fuel : Nat) (s : CState K V)
    (h1 : ∀ e ∈ s.T1, e.firstList = true) :
    ∀ e ∈ (sweepT2Go c fuel s).T1, e.firstList = true := by
  induction fuel generalizing s with
  | zero => exact h1
  | succ n ih =>
    rw [sweepT2Go]; split
    · exact h1
    · split
      · refine ih _ (fun e' he' => ?_)
        rcases List.mem_append.1 he' with h | h
        · exact h1 e' h
        · simp only [List.mem_singleton] at h; subst h; rfl
      · exact h1

theorem sweepT2Go_T2mem (c fuel : Nat) (s : CState K V) :
    ∀ e ∈ (sweepT2Go c fuel s).T2, e ∈ s.T2 := by
  induction fuel generalizing s with
  | zero => exact fun _ h => h
  | succ n ih =>
    rw [sweepT2Go]; split
    · exact fun _ h => h
    · rename_i e rest hT2
      split
      · intro e' he'
        have := ih _ e' he'
        rw [hT2]
        exact List.mem_cons_of_mem _ this
      · exact fun _ h => h

theorem sweepT1Go_B1 (c fuel : Nat) (s : CState K V) :
    (sweepT1Go c fuel s).B1 = s.B1 := by
  induction fuel generalizing s with
  | zero => rfl
  | succ n ih => rw [sweepT1Go]; split
                 · rfl
                 · split
                   · split
                     · exact ih _
                     · exact ih _
                   · rfl

theorem sweepT1Go_B2 (c fuel : Nat) (s : CState K V) :
    (sweepT1Go c fuel s).B2 = s.B2 := by
  induction fuel generalizing s with
  | zero => rfl
  | succ n ih => rw [sweepT1Go]; split
                 · rfl
                 · split
                   · split
                     · exact ih _
                     · exact ih _
                   · rfl

theorem sweepT1Go_p (c fuel : Nat) (s : CState K V) :
    (sweepT1Go c fuel s).p = s.p := by
  induction fuel generalizing s with
  | zero => rfl
  | succ n ih => rw [sweepT1Go]; split
                 · rfl
                 · split
                   · split
                     · exact ih _
                     · exact ih _
                   · rfl

theorem sweepT1Go_usedMemory (c fuel : Nat) (s : CState K V) :
    (sweepT1Go c fuel s).usedMemory = s.usedMemory := by
  induction fuel generalizing s with
  | zero => rfl
  | succ n ih => rw [sweepT1Go]; split
                 · rfl
                 · split
                   · split
                     · exact ih _
                     · exact ih _
                   · rfl

theorem sweepT1Go_usage (c fuel : Nat) (s : CState K V) :
    (sweepT1Go c fuel s).usage = s.usage := by
  induction fuel generalizing s with
  | zero => rfl
  | succ n ih => rw [sweepT1Go]; split
                 · rfl
                 · split
                   · split
                     · exact ih _
                     · exact ih _
                   · rfl

theorem sweepT1Go_count (c fuel : Nat) (s : CState K V) :
    (sweepT1Go c fuel s).nS + (sweepT1Go c fuel s).nL = s.nS + s.nL := by
  induction fuel generalizing s with
  | zero => rfl
  | succ n ih =>
    rw [sweepT1Go]; split
    · rfl
    · split
      · split
        · rw [ih _]
          unfold sweepT1Rotate
          dsimp only
          split
          · ring
          · ring
        · rw [ih _]
          rfl
      · rfl

theorem sweepT1Go_len (c fuel : Nat) (s : CState K V) :
    (sweepT1Go c fuel s).T1.length + (sweepT1Go c fuel s).T2.length
      = s.T1.length + s.T2.length := by
  induction fuel generalizing s with
  | zero => rfl
  | succ n ih =>
    rw [sweepT1Go]; split
    · rfl
    · rename_i e rest hT1
      split
      · split
        · rw [ih _]
          unfold sweepT1Rotate
          dsimp only
          try rw [hT1]
          try simp only [List.length_append, List.length_cons, List.length_nil]
          try omega
        · rw [ih _]
          unfold sweepT1Move
          dsimp only
          try rw [hT1]
          try simp only [List.length_append, List.length_cons, List.length_nil]
          try omega
      · rfl

theorem sweepT1Go_T1first (c fuel : Nat) (s : CState K V)
    (h1 : ∀ e ∈ s.T1, e.firstList = true) :
    ∀ e ∈ (sweepT1Go c fuel s).T1, e.firstList = true := by
  induction fuel generalizing s with
  | zero => exact h1
  | succ n ih =>
    rw [sweepT1Go]; split
    · exact h1
    · rename_i e rest hT1
      split
      · split
        · refine ih _ (fun e' he' => ?_)
          unfold sweepT1Rotate at he'
          dsimp only at he'
          rcases List.mem_append.1 he' with h | h
          · exact h1 e' (by rw [hT1]; exact List.mem_cons_of_mem _ h)
          · simp only [List.mem_singleton] at h; subst h
            exact h1 e (by rw [hT1]; exact List.mem_cons_self _ _)
        · refine ih _ (fun e' he' => ?_)
          unfold sweepT1Move at he'
          dsimp only at he'
          exact h1 e' (by rw [hT1]; exact List.mem_cons_of_mem _ he')
      · exact h1

theorem sweepT1Go_T2notfirst (c fuel : Nat) (s : CState K V)
    (h2 : ∀ e ∈ s.T2, e.firstList = false) :
    ∀ e ∈ (sweepT1Go c fuel s).T2, e.firstList = false := by
  induction fuel generalizing s with
  | zero => exact h2
  | succ n ih =>
    rw [sweepT1Go]; split
    · exact h2
    · split
      · split
        · exact ih _ h2
        · refine ih _ (fun e' he' => ?_)
          unfold sweepT1Move at he'
          dsimp only at he'
          rcases List.mem_append.1 he' with h | h
          · exact h2 e' h
          · simp only [List.mem_singleton] at h; subst h; rfl
      · exact h2

theorem sweepT1Go_T2long (c fuel : Nat) (s : CState K V)
    (h2 : ∀ e ∈ s.T2, e.longBit = true) :
    ∀ e ∈ (sweepT1Go c fuel s).T2, e.longBit = true := by
  induction fuel generalizing s with
  | zero => exact h2
  | succ n ih =>
    rw [sweepT1Go]; split
    · exact h2
    · rename_i e rest hT1
      split
      · rename_i hg
        split
        · exact ih _ h2
        · rename_i he
          refine ih _ (fun e' he' => ?_)
          unfold sweepT1Move at he'
          dsimp only at he'
          rcases List.mem_append.1 he' with h | h
          · exact h2 e' h
          · simp only [List.mem_singleton] at h; subst h
            simp only
            rcases Bool.or_eq_true_iff.1 hg with hl | hr
            · exact hl
            · exact absurd hr he
      · exact h2

/-! ### Invariants preserved by the remaining insertion steps -/

/-- `nS + nL = |T1| + |T2|` (spec §3 / §8, invariant 3). -/
def countInv (s : CState K V) : Prop :=
  s.nS + s.nL = (s.T1.length : Int) + (s.T2.length : Int)

/-- The `firstList` flag of every resident node names its list. -/
def listInv (s : CState K V) : Prop :=
  (∀ e ∈ s.T1, e.firstList = true) ∧ (∀ e ∈ s.T2, e.firstList = false)

theorem demoteT2half_count (I : Iface K V) (s : CState K V) (h : countInv s) :
    countInv (demoteT2half I s) := by
  unfold demoteT2half
  cases he : s.T2.find? (fun e => s.usage e.pageKey e.page ≤ 1) with
  | some e =>
    have hmem := List.mem_of_find?_eq_some he
    have hpred := List.find?_some he
    have hlen := @List.length_eraseP_add_one _
      (fun e => decide (s.usage e.pageKey e.page ≤ 1)) s.T2 e hmem hpred
    unfold countInv at h ⊢
    dsimp only
    omega
  | none => exact h

theorem demote_count (I : Iface K V) (s : CState K V) (h : countInv s) :
    countInv (demote I s) := by
  unfold demote
  by_cases hc : (s.T1.length : Int) ≥ max 1 s.p
  · rw [if_pos hc]
    cases he : s.T1.find? (fun e => s.usage e.pageKey e.page ≤ 1) with
    | some e =>
      have hmem := List.mem_of_find?_eq_some he
      have hpred := List.find?_some he
      have hlen := @List.length_eraseP_add_one _
        (fun e => decide (s.usage e.pageKey e.page ≤ 1)) s.T1 e hmem hpred
      unfold countInv at h ⊢
      dsimp only
      by_cases hl : e.longBit = true
      · simp only [hl, if_true]
        omega
      · simp [hl]
        omega
    | none => exact demoteT2half_count I s h
  · rw [if_neg hc]
    exact demoteT2half_count I s h

theorem demoteT2half_listInv (I : Iface K V) (s : CState K V) (h : listInv s) :
    listInv (demoteT2half I s) := by
  obtain ⟨h1, h2⟩ := h
  unfold demoteT2half
  cases he : s.T2.find? (fun e => s.usage e.pageKey e.page ≤ 1) with
  | some e =>
    exact ⟨h1, fun e' he' => h2 e' ((List.eraseP_sublist s.T2).subset he')⟩
  | none => exact ⟨h1, h2⟩

theorem demote_listInv (I : Iface K V) (s : CState K V) (h : listInv s) :
    listInv (demote I s) := by
  unfold demote
  by_cases hc : (s.T1.length : Int) ≥ max 1 s.p
  · rw [if_pos hc]
    cases he : s.T1.find? (fun e => s.usage e.pageKey e.page ≤ 1) with
    | some e =>
      exact ⟨fun e' he' => h.1 e' ((List.eraseP_sublist s.T1).subset he'), h.2⟩
    | none => exact demoteT2half_listInv I s h
  · rw [if_neg hc]
    exact demoteT2half_listInv I s h

theorem demoteT2half_T2long (I : Iface K V) (s : CState K V)
    (h : ∀ e ∈ s.T2, e.longBit = true) :
    ∀ e ∈ (demoteT2half I s).T2, e.longBit = true := by
  unfold demoteT2half
  cases he : s.T2.find? (fun e => s.usage e.pageKey e.page ≤ 1) with
  | some e => exact fun e' he' => h e' ((List.eraseP_sublist s.T2).subset he')
  | none => exact h

theorem demote_T2long (I : Iface K V) (s : CState K V)
    (h : ∀ e ∈ s.T2, e.longBit = true) :
    ∀ e ∈ (demote I s).T2, e.longBit = true := by
  unfold demote
  by_cases hc : (s.T1.length : Int) ≥ max 1 s.p
  · rw [if_pos hc]
    cases he : s.T1.find? (fun e => s.usage e.pageKey e.page ≤ 1) with
    | some e => exact h
    | none => exact demoteT2half_T2long I s h
  · rw [if_neg hc]
    exact demoteT2half_T2long I s h

theorem ghostTrim_frame (c : Nat) (key : K) (s : CState K V) :
    (ghostTrim c key s).T1 = s.T1 ∧ (ghostTrim c key s).T2 = s.T2 ∧
    (ghostTrim c key s).nS = s.nS ∧ (ghostTrim c key s).nL = s.nL ∧
    (ghostTrim c key s).p = s.p ∧ (ghostTrim c key s).q = s.q ∧
    (ghostTrim c key s).usedMemory = s.usedMemory ∧
    (ghostTrim c key s).usage = s.usage := by
  unfold ghostTrim
  split
  · split
    · exact ⟨rfl, rfl, rfl, rfl, rfl, rfl, rfl, rfl⟩
    · split
      · exact ⟨rfl, rfl, rfl, rfl, rfl, rfl, rfl, rfl⟩
      · exact ⟨rfl, rfl, rfl, rfl, rfl, rfl, rfl, rfl⟩
  · exact ⟨rfl, rfl, rfl, rfl, rfl, rfl, rfl, rfl⟩

theorem installEntry_count (c : Nat) (key : K) (value : Option V) (s : CState K V)
    (h : countInv s) : countInv (installEntry c key value s) := by
  unfold installEntry
  split
  · unfold countInv at h ⊢
    dsimp only
    simp only [List.length_append, List.length_cons, List.length_nil]
    push_cast at h ⊢
    omega
  · split
    · unfold countInv at h ⊢
      dsimp only
      simp only [List.length_append, List.length_cons, List.length_nil]
      push_cast at h ⊢
      omega
    · unfold countInv at h ⊢
      dsimp only
      simp only [List.length_append, List.length_cons, List.length_nil]
      push_cast at h ⊢
      omega

theorem installEntry_listInv (c : Nat) (key : K) (value : Option V) (s : CState K V)
    (h : listInv s) : listInv (installEntry c key value s) := by
  obtain ⟨h1, h2⟩ := h
  unfold installEntry
  split
  · refine ⟨fun e' he' => ?_, h2⟩
    rcases List.mem_append.1 he' with hm | hm
    · exact h1 e' hm
    · simp only [List.mem_singleton] at hm; subst hm; rfl
  · rename_i e hg
    split
    · rename_i hfst
      refine ⟨fun e' he' => ?_, h2⟩
      rcases List.mem_append.1 he' with hm | hm
      · exact h1 e' hm
      · simp only [List.mem_singleton] at hm; subst hm; exact hfst
    · refine ⟨fun e' he' => ?_, h2⟩
      rcases List.mem_append.1 he' with hm | hm
      · exact h1 e' hm
      · simp only [List.mem_singleton] at hm; subst hm; rfl

theorem installEntry_T2 (c : Nat) (key : K) (value : Option V) (s : CState K V) :
    (installEntry c key value s).T2 = s.T2 := by
  unfold installEntry
  split
  · rfl
  · split
    · rfl
    · rfl

/-- Equality of everything the replacement policy sees: the four lists, the
adaptive parameters, the filter counters and the memory counter — i.e. the
whole state except the usage map. -/
def policyEq (s t : CState K V) : Prop :=
  s.T1 = t.T1 ∧ s.T2 = t.T2 ∧ s.B1 = t.B1 ∧ s.B2 = t.B2 ∧
  s.p = t.p ∧ s.q = t.q ∧ s.nS = t.nS ∧ s.nL = t.nL ∧ s.usedMemory = t.usedMemory

theorem incUsage_policyEq (s : CState K V) (key : K) (value : Option V) :
    policyEq (incUsage s key value) s :=
  ⟨rfl, rfl, rfl, rfl, rfl, rfl, rfl, rfl, rfl⟩

theorem decUsage_policyEq (s : CState K V) (key : K) (value : Option V) :
    policyEq (decUsage s key value).1 s := by
  unfold decUsage
  split
  · exact ⟨rfl, rfl, rfl, rfl, rfl, rfl, rfl, rfl, rfl⟩
  · exact ⟨rfl, rfl, rfl, rfl, rfl, rfl, rfl, rfl, rfl⟩

theorem mkHandle_policyEq (s : CState K V) (key : K) (value : Option V) :
    policyEq (mkHandle s key value).1 s := by
  unfold mkHandle
  cases value with
  | some v => exact incUsage_policyEq s key (some v)
  | none => exact ⟨rfl, rfl, rfl, rfl, rfl, rfl, rfl, rfl, rfl⟩

theorem handleRelease_policyEq (s : CState K V) (h : Handle K V) :
    policyEq (handleRelease s h).1 s := by
  unfold handleRelease
  match h with
  | some (k, v) => exact decUsage_policyEq s k (some v)
  | none => exact ⟨rfl, rfl, rfl, rfl, rfl, rfl, rfl, rfl, rfl⟩

theorem policyEq_countInv {s t : CState K V} (h : policyEq s t) (hc : countInv t) :
    countInv s := by
  obtain ⟨h1, h2, _, _, _, _, h7, h8, _⟩ := h
  unfold countInv at hc ⊢
  rw [h1, h2, h7, h8]
  exact hc

theorem policyEq_listInv {s t : CState K V} (h : policyEq s t) (hl : listInv t) :
    listInv s := by
  obtain ⟨h1, h2, _⟩ := h
  unfold listInv at hl ⊢
  rw [h1, h2]
  exact hl

theorem policyEq_T2long {s t : CState K V} (h : policyEq s t)
    (hl : ∀ e ∈ t.T2, e.longBit = true) : ∀ e ∈ s.T2, e.longBit = true := by
  rw [h.2.1]
  exact hl

theorem setRefBit_countInv (s : CState K V) (key : K) (h : countInv s) :
    countInv (setRefBit s key) := by
  unfold countInv at h ⊢
  unfold setRefBit
  dsimp only
  simpa only [List.length_map] using h

theorem setRefBit_listInv (s : CState K V) (key : K) (h : listInv s) :
    listInv (setRefBit s key) := by
  obtain ⟨h1, h2⟩ := h
  unfold setRefBit
  constructor
  · intro e' he'
    dsimp only at he'
    obtain ⟨a, ha, rfl⟩ := List.mem_map.1 he'
    by_cases hk : a.pageKey = key
    · simp only [hk, if_true]; exact h1 a ha
    · simp only [hk, if_false]; exact h1 a ha
  · intro e' he'
    dsimp only at he'
    obtain ⟨a, ha, rfl⟩ := List.mem_map.1 he'
    by_cases hk : a.pageKey = key
    · simp only [hk, if_true]; exact h2 a ha
    · simp only [hk, if_false]; exact h2 a ha

theorem setRefBit_T2long (s : CState K V) (key : K)
    (h : ∀ e ∈ s.T2, e.longBit = true) :
    ∀ e ∈ (setRefBit s key).T2, e.longBit = true := by
  intro e' he'
  unfold setRefBit at he'
  dsimp only at he'
  obtain ⟨a, ha, rfl⟩ := List.mem_map.1 he'
  by_cases hk : a.pageKey = key
  · simp only [hk, if_true]; exact h a ha
  · simp only [hk, if_false]; exact h a ha

theorem sweepT2_countInv (c : Nat) (s : CState K V) (h : countInv s) :
    countInv (sweepT2 c s) := by
  unfold countInv at h ⊢
  rw [sweepT2, sweepT2Go_nS, sweepT2Go_nL]
  have := sweepT2Go_len c s.T2.length s
  omega

theorem sweepT2_listInv (c : Nat) (s : CState K V) (h : listInv s) :
    listInv (sweepT2 c s) :=
  ⟨sweepT2Go_T1first c s.T2.length s h.1,
   fun e he => h.2 e (sweepT2Go_T2mem c s.T2.length s e he)⟩

theorem sweepT2_T2long (c : Nat) (s : CState K V)
    (h : ∀ e ∈ s.T2, e.longBit = true) :
    ∀ e ∈ (sweepT2 c s).T2, e.longBit = true :=
  fun e he => h e (sweepT2Go_T2mem c s.T2.length s e he)

theorem sweepT1_countInv (c : Nat) (s : CState K V) (h : countInv s) :
    countInv (sweepT1 c s) := by
  unfold countInv at h ⊢
  have h1 := sweepT1Go_count c (sweepT1Measure s) s
  have h2 := sweepT1Go_len c (sweepT1Measure s) s
  rw [sweepT1]
  omega

theorem sweepT1_listInv (c : Nat) (s : CState K V) (h : listInv s) :
    listInv (sweepT1 c s) :=
  ⟨sweepT1Go_T1first c (sweepT1Measure s) s h.1,
   sweepT1Go_T2notfirst c (sweepT1Measure s) s h.2⟩

theorem sweepT1_T2long (c : Nat) (s : CState K V)
    (h : ∀ e ∈ s.T2, e.longBit = true) :
    ∀ e ∈ (sweepT1 c s).T2, e.longBit = true :=
  sweepT1Go_T2long c (sweepT1Measure s) s h

theorem ghostTrim_countInv (c : Nat) (key : K) (s : CState K V) (h : countInv s) :
    countInv (ghostTrim c key s) := by
  obtain ⟨h1, h2, h3, h4, _⟩ := ghostTrim_frame c key s
  unfold countInv at h ⊢
  rw [h1, h2, h3, h4]
  exact h

theorem ghostTrim_listInv (c : Nat) (key : K) (s : CState K V) (h : listInv s) :
    listInv (ghostTrim c key s) := by
  obtain ⟨h1, h2, _⟩ := ghostTrim_frame c key s
  unfold listInv at h ⊢
  rw [h1, h2]
  exact h

theorem ghostTrim_T2long (c : Nat) (key : K) (s : CState K V)
    (h : ∀ e ∈ s.T2, e.longBit = true) :
    ∀ e ∈ (ghostTrim c key s).T2, e.longBit = true := by
  rw [(ghostTrim_frame c key s).2.1]
  exact h

theorem installEntry_T2long (c : Nat) (key : K) (value : Option V) (s : CState K V)
    (h : ∀ e ∈ s.T2, e.longBit = true) :
    ∀ e ∈ (installEntry c key value s).T2, e.longBit = true := by
  rw [installEntry_T2]
  exact h

/-! ### Invariant preservation by every public operation -/

theorem insertMiss_inv (I : Iface K V) (cfg : Config) (s : CState K V) (key : K)
    (value : Option V) (hc : countInv s) (hl : listInv s) :
    countInv (insertMiss I cfg s key value).1 ∧ listInv (insertMiss I cfg s key value).1 := by
  have hs1c : countInv (incUsage s key value) :=
    policyEq_countInv (incUsage_policyEq s key value) hc
  have hs1l : listInv (incUsage s key value) :=
    policyEq_listInv (incUsage_policyEq s key value) hl
  unfold insertMiss
  dsimp only
  constructor
  · refine policyEq_countInv (mkHandle_policyEq _ _ _) ?_
    exact installEntry_count _ _ _ _ (by
      split
      · exact ghostTrim_countInv _ _ _
          (demote_count _ _ (sweepT1_countInv _ _ (sweepT2_countInv _ _ hs1c)))
      · exact hs1c)
  · refine policyEq_listInv (mkHandle_policyEq _ _ _) ?_
    exact installEntry_listInv _ _ _ _ (by
      split
      · exact ghostTrim_listInv _ _ _
          (demote_listInv _ _ (sweepT1_listInv _ _ (sweepT2_listInv _ _ hs1l)))
      · exact hs1l)

theorem insertMiss_T2long (I : Iface K V) (cfg : Config) (s : CState K V) (key : K)
    (value : Option V) (h : ∀ e ∈ s.T2, e.longBit = true) :
    ∀ e ∈ (insertMiss I cfg s key value).1.T2, e.longBit = true := by
  have hs1 : ∀ e ∈ (incUsage s key value).T2, e.longBit = true :=
    policyEq_T2long (incUsage_policyEq s key value) h
  unfold insertMiss
  dsimp only
  refine policyEq_T2long (mkHandle_policyEq _ _ _) ?_
  refine installEntry_T2long _ _ _ _ (by
    split
    · exact ghostTrim_T2long _ _ _
        (demote_T2long _ _ (sweepT1_T2long _ _ (sweepT2_T2long _ _ hs1)))
    · exact hs1)

theorem internalInsert_inv (I : Iface K V) (cfg : Config) (s : CState K V) (key : K)
    (supplied : Option V) (hc : countInv s) (hl : listInv s) :
    countInv (internalInsert I cfg s key supplied).1 ∧
    listInv (internalInsert I cfg s key supplied).1 := by
  unfold internalInsert
  cases hr : rFind s key with
  | some e =>
    exact ⟨policyEq_countInv (mkHandle_policyEq s key e.page) hc,
           policyEq_listInv (mkHandle_policyEq s key e.page) hl⟩
  | none => exact insertMiss_inv I cfg s key _ hc hl

theorem internalInsert_T2long (I : Iface K V) (cfg : Config) (s : CState K V) (key : K)
    (supplied : Option V) (h : ∀ e ∈ s.T2, e.longBit = true) :
    ∀ e ∈ (internalInsert I cfg s key supplied).1.T2, e.longBit = true := by
  unfold internalInsert
  cases hr : rFind s key with
  | some e => exact policyEq_T2long (mkHandle_policyEq s key e.page) h
  | none => exact insertMiss_T2long I cfg s key _ h

theorem internalRemove_inv (I : Iface K V) (s : CState K V) (key : K)
    (hc : countInv s) (hl : listInv s) :
    countInv (internalRemove I s key) ∧ listInv (internalRemove I s key) := by
  unfold internalRemove
  cases hr : rFind s key with
  | none => exact ⟨hc, hl⟩
  | some e =>
    dsimp only
    have hmem : e ∈ s.T1 ++ s.T2 := List.mem_of_find?_eq_some hr
    have hkey : e.pageKey = key := by simpa using List.find?_some hr
    by_cases hf : e.firstList = true
    · rw [if_pos hf]
      have heT1 : e ∈ s.T1 := by
        rcases List.mem_append.1 hmem with h | h
        · exact h
        · exact absurd (hl.2 e h) (by simp [hf])
      have hpred : (fun e' : Entry K V => decide (e'.pageKey = key)) e = true := by
        simp [hkey]
      have hlen := @List.length_eraseP_add_one _
        (fun e' : Entry K V => decide (e'.pageKey = key)) s.T1 e heT1 hpred
      constructor
      · unfold countInv at hc ⊢
        dsimp only
        by_cases hlb : e.longBit = true
        · simp only [hlb, if_true]
          omega
        · simp [hlb]
          omega
      · exact ⟨fun e' he' => hl.1 e' ((List.eraseP_sublist s.T1).subset he'), hl.2⟩
    · rw [if_neg hf]
      have heT2 : e ∈ s.T2 := by
        rcases List.mem_append.1 hmem with h | h
        · exact absurd (hl.1 e h) (by simpa using hf)
        · exact h
      have hpred : (fun e' : Entry K V => decide (e'.pageKey = key)) e = true := by
        simp [hkey]
      have hlen := @List.length_eraseP_add_one _
        (fun e' : Entry K V => decide (e'.pageKey = key)) s.T2 e heT2 hpred
      constructor
      · unfold countInv at hc ⊢
        dsimp only
        omega
      · exact ⟨hl.1, fun e' he' => hl.2 e' ((List.eraseP_sublist s.T2).subset he')⟩

theorem internalRemove_T2long (I : Iface K V) (s : CState K V) (key : K)
    (h : ∀ e ∈ s.T2, e.longBit = true) :
    ∀ e ∈ (internalRemove I s key).T2, e.longBit = true := by
  unfold internalRemove
  cases hr : rFind s key with
  | none => exact h
  | some e =>
    dsimp only
    by_cases hf : e.firstList = true
    · rw [if_pos hf]
      exact h
    · rw [if_neg hf]
      exact fun e' he' => h e' ((List.eraseP_sublist s.T2).subset he')

theorem clear_inv (s : CState K V) : countInv (clear s) ∧ listInv (clear s) := by
  constructor
  · unfold countInv
    rfl
  · constructor
    · intro e he
      simp [clear, initState] at he
    · intro e he
      simp [clear, initState] at he

theorem clear_T2long (s : CState K V) : ∀ e ∈ (clear s).T2, e.longBit = true := by
  intro e he
  simp [clear, initState] at he

theorem findOrCreate_inv (I : Iface K V) (cfg : Config) (s : CState K V) (key : K)
    (hc : countInv s) (hl : listInv s) :
    countInv (findOrCreate I cfg s key).1 ∧ listInv (findOrCreate I cfg s key).1 := by
  unfold findOrCreate
  cases hr : rFind s key with
  | some e =>
    exact ⟨policyEq_countInv (mkHandle_policyEq _ key e.page) (setRefBit_countInv s key hc),
           policyEq_listInv (mkHandle_policyEq _ key e.page) (setRefBit_listInv s key hl)⟩
  | none => exact internalInsert_inv I cfg s key none hc hl

theorem findOrCreate_T2long (I : Iface K V) (cfg : Config) (s : CState K V) (key : K)
    (h : ∀ e ∈ s.T2, e.longBit = true) :
    ∀ e ∈ (findOrCreate I cfg s key).1.T2, e.longBit = true := by
  unfold findOrCreate
  cases hr : rFind s key with
  | some e =>
    exact policyEq_T2long (mkHandle_policyEq _ key e.page) (setRefBit_T2long s key h)
  | none => exact internalInsert_T2long I cfg s key none h

theorem isInCache_inv (s : CState K V) (key : K)
    (hc : countInv s) (hl : listInv s) :
    countInv (isInCache s key).1 ∧ listInv (isInCache s key).1 := by
  unfold isInCache
  cases hr : rFind s key with
  | some e =>
    exact ⟨policyEq_countInv (mkHandle_policyEq s key e.page) hc,
           policyEq_listInv (mkHandle_policyEq s key e.page) hl⟩
  | none => exact ⟨hc, hl⟩

theorem isInCache_T2long (s : CState K V) (key : K)
    (h : ∀ e ∈ s.T2, e.longBit = true) :
    ∀ e ∈ (isInCache s key).1.T2, e.longBit = true := by
  unfold isInCache
  cases hr : rFind s key with
  | some e => exact policyEq_T2long (mkHandle_policyEq s key e.page) h
  | none => exact h

theorem applyOp_inv (I : Iface K V) (cfg : Config) (s : CState K V) (op : Op K V)
    (hc : countInv s) (hl : listInv s) :
    countInv (applyOp I cfg s op) ∧ listInv (applyOp I cfg s op) := by
  cases op with
  | findOrCreate key keep =>
    have h := findOrCreate_inv I cfg s key hc hl
    unfold applyOp
    dsimp only
    split
    · exact h
    · exact ⟨policyEq_countInv (handleRelease_policyEq _ _) h.1,
             policyEq_listInv (handleRelease_policyEq _ _) h.2⟩
  | isInCache key keep =>
    have h := isInCache_inv s key hc hl
    unfold applyOp
    dsimp only
    split
    · exact h
    · exact ⟨policyEq_countInv (handleRelease_policyEq _ _) h.1,
             policyEq_listInv (handleRelease_policyEq _ _) h.2⟩
  | insertIntoCache key value keep =>
    have h := internalInsert_inv I cfg s key value hc hl
    unfold applyOp insertIntoCache
    dsimp only
    split
    · exact h
    · exact ⟨policyEq_countInv (handleRelease_policyEq _ _) h.1,
             policyEq_listInv (handleRelease_policyEq _ _) h.2⟩
  | removeFromCache key => exact internalRemove_inv I s key hc hl
  | clear => exact clear_inv s

theorem applyOp_T2long (I : Iface K V) (cfg : Config) (s : CState K V) (op : Op K V)
    (h : ∀ e ∈ s.T2, e.longBit = true) :
    ∀ e ∈ (applyOp I cfg s op).T2, e.longBit = true := by
  cases op with
  | findOrCreate key keep =>
    have hi := findOrCreate_T2long I cfg s key h
    unfold applyOp
    dsimp only
    split
    · exact hi
    · exact policyEq_T2long (handleRelease_policyEq _ _) hi
  | isInCache key keep =>
    have hi := isInCache_T2long s key h
    unfold applyOp
    dsimp only
    split
    · exact hi
    · exact policyEq_T2long (handleRelease_policyEq _ _) hi
  | insertIntoCache key value keep =>
    have hi := internalInsert_T2long I cfg s key value h
    unfold applyOp insertIntoCache
    dsimp only
    split
    · exact hi
    · exact policyEq_T2long (handleRelease_policyEq _ _) hi
  | removeFromCache key => exact internalRemove_T2long I s key h
  | clear => exact clear_T2long s

theorem runOps_from_inv (I : Iface K V) (cfg : Config) (ops : List (Op K V))
    (s : CState K V) (hc : countInv s) (hl : listInv s) :
    countInv (ops.foldl (applyOp I cfg) s) ∧ listInv (ops.foldl (applyOp I cfg) s) := by
  induction ops generalizing s with
  | nil => exact ⟨hc, hl⟩
  | cons op rest ih =>
    obtain ⟨hc', hl'⟩ := applyOp_inv I cfg s op hc hl
    exact ih _ hc' hl'

theorem runOps_from_T2long (I : Iface K V) (cfg : Config) (ops : List (Op K V))
    (s : CState K V) (h : ∀ e ∈ s.T2, e.longBit = true) :
    ∀ e ∈ (ops.foldl (applyOp I cfg) s).T2, e.longBit = true := by
  induction ops generalizing s with
  | nil => exact h
  | cons op rest ih => exact ih _ (applyOp_T2long I cfg s op h)

/-! ### Concrete instances used by counterexamples and witnesses -/

/-- Loader that always succeeds, every value reported as 3 bytes. -/
def ifaceA : Iface Nat Nat :=
  { acquire := fun k => some k,
    getValueSize := fun v => match v with | none => 0 | some _ => 3 }

/-- 10 elements / 5 bytes: the byte budget binds long before the element
budget does. -/
def cfgA : Config := ⟨10, 5⟩

/-- Two successful insertions of 3-byte values: `usedMemory = 6 ≥ 5`, so the
cache is full by bytes while holding only 2 of its 10 permitted elements. -/
def stateA : CState Nat Nat :=
  runOps ifaceA cfgA [.findOrCreate 1 false, .findOrCreate 2 false]

/-- Loader that always fails (returns a null pointer). -/
def ifaceB : Iface Nat Nat :=
  { acquire := fun _ => none, getValueSize := fun _ => 0 }

def cfgB : Config := ⟨4, 0⟩

/-- The state after `FindOrCreate 1` hits the failing loader. -/
def stateB : CState Nat Nat :=
  (findOrCreate ifaceB cfgB (initState Nat Nat) 1).1

/-- Loader that always succeeds, capacity 2 by element count. -/
def ifaceC : Iface Nat Nat :=
  { acquire := fun k => some k, getValueSize := fun _ => 1 }

def cfgC : Config := ⟨2, 0⟩

/-- Fill to capacity, re-reference key 1 (setting its reference bit), then
miss twice: the sweep of the first miss rotates and promotes key 1 to Long
(B1 is empty, so the promotion threshold `min(p+1, |B1|)` is 0), and the
sweep of the second miss moves the now unreferenced Long entry into T2. -/
def opsC : List (Op Nat Nat) :=
  [.findOrCreate 1 false, .findOrCreate 2 false, .findOrCreate 1 false,
   .findOrCreate 3 false, .findOrCreate 4 false]

/-! ### C1 — effective capacity -/

/-- C1, counterexample.  The claim says the capacity used by a full
insertion is `max(maxNumElements, |T1|+|T2|)`.  On `stateA` the cache is
full (byte budget), yet the captured capacity is `|T1|+|T2| = 2` while
`max(maxNumElements, |T1|+|T2|) = max 10 2 = 10`. -/
theorem c1_counterexample :
    isFull cfgA stateA ∧
    effCapacity cfgA stateA = 2 ∧
    max cfgA.maxNumElements (stateA.T1.length + stateA.T2.length) = 10 := by
  refine ⟨by decide, by decide, by decide⟩

/-- C1, amended: for every insertion performed while `IsFull()` holds, the
effective capacity captured at the start of the insertion (and passed to
the clock sweeps, the ghost trim and the adaptation steps — see
`insertMiss`) is exactly `|T1| + |T2|`, not
`max(maxNumElements, |T1|+|T2|)`; the two agree whenever the element-count
budget is the binding constraint, but differ when only the byte budget is
exceeded. -/
theorem c1_amended_capacity (cfg : Config) (s : CState K V)
    (h : isFull cfg s) :
    effCapacity cfg s = s.T1.length + s.T2.length := by
  unfold effCapacity
  rw [if_pos h]

theorem c1_witness :
    isFull cfgA stateA ∧
    effCapacity cfgA stateA = stateA.T1.length + stateA.T2.length :=
  ⟨by decide, c1_amended_capacity cfgA stateA (by decide)⟩

/-! ### C2 — loader failure -/

/-- C2, counterexample.  The claim says a failing loader leaves every part
of the cache state unchanged.  In fact `InternalInsert` performs no check at
all: after `FindOrCreate 1` with a loader that returns null, the key sits in
T1 (hence in the resident index) with a null value, `nS` has been bumped,
and the usage map carries a row for `(1, null)`. -/
theorem c2_counterexample :
    ifaceB.acquire 1 = none ∧
    stateB.T1.length = 1 ∧ (initState Nat Nat).T1.length = 0 ∧
    stateB.nS = 1 ∧ (initState Nat Nat).nS = 0 ∧
    stateB.usage 1 none = 1 ∧ (initState Nat Nat).usage 1 none = 0 := by
  refine ⟨by decide, by decide, by decide, by decide, by decide, by decide, by decide⟩

theorem installEntry_T1_getLast (c : Nat) (key : K) (value : Option V) (s : CState K V) :
    ((installEntry c key value s).T1.map (fun e => e.pageKey)).getLast? = some key := by
  unfold installEntry
  cases hg : gFind s key with
  | none =>
    dsimp only
    rw [List.map_append]
    simp
  | some e =>
    have hk : e.pageKey = key := by simpa using List.find?_some hg
    dsimp only
    split
    · dsimp only
      rw [List.map_append]
      simp [hk]
    · dsimp only
      rw [List.map_append]
      simp [hk]

/-- C2, amended: when the key is not resident and the loader returns no
value, the caller does receive an empty handle, but the cache state is
mutated rather than left unchanged: the insertion runs to completion with a
null value, so afterwards the key is resident — the tail entry of T1 (and
hence a row of the resident index `R`) carries the failed key. -/
theorem c2_amended_failure_inserts_null (I : Iface K V) (cfg : Config)
    (s : CState K V) (key : K)
    (hr : rFind s key = none) (ha : I.acquire key = none) :
    (internalInsert I cfg s key none).2 = (none : Handle K V) ∧
    ((internalInsert I cfg s key none).1.T1.map (fun e => e.pageKey)).getLast?
      = some key := by
  unfold internalInsert
  rw [hr]
  dsimp only
  rw [ha]
  unfold insertMiss
  dsimp only
  exact ⟨rfl, installEntry_T1_getLast _ key none _⟩

theorem c2_witness :
    rFind (initState Nat Nat) 7 = none ∧ ifaceB.acquire 7 = none ∧
    (internalInsert ifaceB cfgB (initState Nat Nat) 7 none).2 = none ∧
    ((internalInsert ifaceB cfgB (initState Nat Nat) 7 none).1.T1.map
      (fun e => e.pageKey)).getLast? = some 7 :=
  ⟨by decide, by decide,
   (c2_amended_failure_inserts_null ifaceB cfgB (initState Nat Nat) 7
     (by decide) (by decide)).1,
   (c2_amended_failure_inserts_null ifaceB cfgB (initState Nat Nat) 7
     (by decide) (by decide)).2⟩

/-! ### C3 — `nS + nL = |T1| + |T2|` -/

/-- C3: starting from a freshly constructed (or cleared) cache, after every
complete `FindOrCreate`, `IsInCache`, `InsertIntoCache`, `RemoveFromCache`
or `Clear` operation — returned handles kept or dropped at will — the
invariant `nS + nL = |T1| + |T2|` holds. -/
theorem c3_count_invariant (I : Iface K V) (cfg : Config) (ops : List (Op K V)) :
    countInv (runOps I cfg ops) := by
  have hc : countInv (initState K V) := by unfold countInv; rfl
  have hl : listInv (initState K V) :=
    ⟨fun e he => by simp [initState] at he, fun e he => by simp [initState] at he⟩
  exact (runOps_from_inv I cfg ops _ hc hl).1

/-! ### C10 — every T2 entry is Long -/

/-- C10: in every reachable cache state, every entry residing in the T2
queue has its filter set to Long (`longBit = true`); entries enter T2 only
through the T1 head sweep branch that requires an unreferenced Long entry
(`sweepT1Move`, guarded by `longBit || referenceBit` with the reference bit
clear) or via the T2 rotation which drains back into T1, so the
unconditional `nL` decrements on T2 demotion and on removal of a
T2-resident key are correct. -/
theorem c10_T2_entries_long (I : Iface K V) (cfg : Config) (ops : List (Op K V)) :
    ∀ e ∈ (runOps I cfg ops).T2, e.longBit = true := by
  refine runOps_from_T2long I cfg ops _ ?_
  intro e he
  simp [initState] at he

theorem c10_witness :
    (runOps ifaceC cfgC opsC).T2 = [⟨1, some 1, false, true, false⟩] ∧
    (⟨1, some 1, false, true, false⟩ : Entry Nat Nat).longBit = true :=
  ⟨by decide, c10_T2_entries_long ifaceC cfgC opsC _ (by decide)⟩

/-! ### C7 — peek is pure -/

theorem incDec_usage_cancel (s : CState K V) (key : K) (value : Option V) :
    (decUsage (incUsage s key value) key value).1 = s := by
  unfold incUsage decUsage
  dsimp only
  rw [if_neg (by simp)]
  cases s with
  | mk T1 T2 B1 B2 p q nS nL um us =>
    simp only [CState.mk.injEq, true_and, and_true]
    funext k v
    by_cases h : k = key ∧ v = value
    · obtain ⟨h1, h2⟩ := h
      subst h1; subst h2
      simp
    · simp [h]

/-- C7: `IsInCache` (peek) never sets a reference bit and never changes any
list, `p`, `q`, `nS` or `nL` (first conjunct: the whole policy state is
untouched — the only write is the handle's usage bump).  Second conjunct:
peeking and dropping the handle is the identity on the full state, so two
consecutive peeks have exactly the observable effect of one (third
conjunct). -/
theorem c7_peek_pure (I : Iface K V) (cfg : Config) (s : CState K V) (key : K) :
    policyEq (isInCache s key).1 s ∧
    applyOp I cfg s (.isInCache key false) = s ∧
    applyOp I cfg (applyOp I cfg s (.isInCache key false)) (.isInCache key false)
      = applyOp I cfg s (.isInCache key false) := by
  have h2 : applyOp I cfg s (.isInCache key false) = s := by
    show (handleRelease (isInCache s key).1 (isInCache s key).2).1 = s
    unfold isInCache
    cases hr : rFind s key with
    | some e =>
      dsimp only
      unfold mkHandle
      cases hp : e.page with
      | some v =>
        dsimp only
        unfold handleRelease
        exact incDec_usage_cancel s key (some v)
      | none => rfl
    | none => rfl
  have h1 : policyEq (isInCache s key).1 s := by
    unfold isInCache
    cases hr : rFind s key with
    | some e => exact mkHandle_policyEq s key e.page
    | none => exact ⟨rfl, rfl, rfl, rfl, rfl, rfl, rfl, rfl, rfl⟩
  exact ⟨h1, h2, by rw [h2]; exact h2⟩

/-! ### C8 — explicit removal -/

theorem decUsage_usage_congr (s t : CState K V) (h : s.usage = t.usage)
    (key : K) (value : Option V) :
    (decUsage s key value).1.usage = (decUsage t key value).1.usage := by
  unfold decUsage
  by_cases hc : t.usage key value = 0
  · rw [if_pos (by rw [h]; exact hc), if_pos hc]
    exact h
  · rw [if_neg (by rw [h]; exact hc), if_neg hc]
    dsimp only
    funext k v
    rw [h]

/-- C8: `RemoveFromCache` on a non-resident key leaves the whole state
unchanged; on a resident key it removes the entry from the list named by its
`firstList` flag and from the resident index (derived from the lists),
decrements `nS`/`nL` according to the entry's filter (the T2 branch always
decrements `nL`), drops the cache's refcount, subtracts the value's size
from `usedMemory`, and leaves B1, B2 and the ghost index untouched (both
result records keep `B1 := s.B1`, `B2 := s.B2`). -/
theorem c8_remove_characterization (I : Iface K V) (s : CState K V) (key : K) :
    (rFind s key = none → internalRemove I s key = s) ∧
    (∀ e, rFind s key = some e → e.firstList = true →
      internalRemove I s key =
        { s with T1 := s.T1.eraseP (fun e' => e'.pageKey = key),
                 nS := if e.longBit then s.nS else s.nS - 1,
                 nL := if e.longBit then s.nL - 1 else s.nL,
                 usage := (decUsage s e.pageKey e.page).1.usage,
                 usedMemory := s.usedMemory - I.getValueSize e.page }) ∧
    (∀ e, rFind s key = some e → e.firstList = false →
      internalRemove I s key =
        { s with T2 := s.T2.eraseP (fun e' => e'.pageKey = key),
                 nL := s.nL - 1,
                 usage := (decUsage s e.pageKey e.page).1.usage,
                 usedMemory := s.usedMemory - I.getValueSize e.page }) := by
  refine ⟨?_, ?_, ?_⟩
  · intro h
    unfold internalRemove
    rw [h]
  · intro e hr hf
    unfold internalRemove
    rw [hr]
    dsimp only
    rw [if_pos hf]
    congr 1 <;> (first
      | rfl
      | exact decUsage_usage_congr _ _ (by rfl) _ _)
  · intro e hr hf
    unfold internalRemove
    rw [hr]
    dsimp only
    rw [if_neg (by simp [hf])]
    congr 1 <;> (first
      | rfl
      | exact decUsage_usage_congr _ _ (by rfl) _ _)

theorem c8_witness :
    rFind stateA 1 = some ⟨1, some 1, false, false, true⟩ ∧
    internalRemove ifaceA stateA 1 =
      { stateA with T1 := stateA.T1.eraseP (fun e' => e'.pageKey = 1),
                    nS := stateA.nS - 1, nL := stateA.nL,
                    usage := (decUsage stateA 1 (some 1)).1.usage,
                    usedMemory := stateA.usedMemory - ifaceA.getValueSize (some 1) } := by
  constructor
  · decide
  · have h := (c8_remove_characterization ifaceA stateA 1).2.1
      ⟨1, some 1, false, false, true⟩ (by decide) rfl
    simpa using h

/-! ### C9 — handle copy / destroy round trip -/

/-- C9: copying a non-empty handle increments `usage[key, value]` by one;
releasing (destroying, moving out of, or reassigning over) it decrements by
one; when another holder exists (`usage ≥ 1`, e.g. the cache's own
refcount), the copy-then-destroy round trip restores the state exactly and
the release's `isZero` result is `false`, satisfying `assert(!isZero)`. -/
theorem c9_handle_copy_roundtrip (s : CState K V) (k : K) (v : V)
    (h : 1 ≤ s.usage k (some v)) :
    (handleCopy s (some (k, v))).usage k (some v) = s.usage k (some v) + 1 ∧
    (handleRelease (handleCopy s (some (k, v))) (some (k, v))).1 = s ∧
    (handleRelease (handleCopy s (some (k, v))) (some (k, v))).2 = false := by
  refine ⟨?_, ?_, ?_⟩
  · unfold handleCopy incUsage
    dsimp only
    simp
  · exact incDec_usage_cancel s k (some v)
  · unfold handleCopy handleRelease incUsage decUsage
    dsimp only
    rw [if_neg (by simp)]
    dsimp only
    simp
    omega

def stateD : CState Nat Nat := incUsage (initState Nat Nat) 1 (some 2)

theorem c9_witness :
    1 ≤ stateD.usage 1 (some 2) ∧
    ((handleCopy stateD (some (1, 2))).usage 1 (some 2)
        = stateD.usage 1 (some 2) + 1 ∧
      (handleRelease (handleCopy stateD (some (1, 2))) (some (1, 2))).1 = stateD ∧
      (handleRelease (handleCopy stateD (some (1, 2))) (some (1, 2))).2 = false) :=
  ⟨by decide, c9_handle_copy_roundtrip stateD 1 2 (by decide)⟩

/-! ### C6 — ghost hit in B1 -/

/-- C6: at a B1 ghost hit of the install step (the ghost node for the key is
found with `firstList` set, which puts it in B1), the adapter sets
`p := min(p + max(1, nS / max(1, |B1|)), c)` (at a hit `|B1| ≥ 1`, so this
equals the source's `m_B1ListSize ? m_numShort / m_B1ListSize : 0` guard),
the ghost node is converted to a resident entry — value pulled in, reference
bit cleared, filter set to Long — at the tail of T1, `nL` is incremented and
the node is erased from B1.  T1 and B1 carry the resident and ghost indexes
(`rFind` / `gFind`), so the key simultaneously leaves `G` and enters `R`. -/
theorem c6_b1_ghost_hit (c : Nat) (key : K) (value : Option V) (s : CState K V)
    (e : Entry K V) (h1 : s.B1.find? (fun e' => e'.pageKey = key) = some e)
    (h2 : e.firstList = true) :
    installEntry c key value s =
      { s with
        p := min (s.p + max 1 (s.nS / max 1 (s.B1.length : Int))) (c : Int),
        T1 := s.T1 ++ [{ e with page := value, referenceBit := false, longBit := true }],
        nL := s.nL + 1,
        B1 := s.B1.eraseP (fun e' => e'.pageKey = key) } := by
  have hg : gFind s key = some e := by
    unfold gFind
    rw [List.find?_append, h1]
    rfl
  have hmem := List.mem_of_find?_eq_some h1
  have hlen : 0 < s.B1.length := List.length_pos_of_mem hmem
  unfold installEntry
  rw [hg]
  dsimp only
  rw [if_pos h2]
  have hne : s.B1.length ≠ 0 := by omega
  rw [if_pos hne]
  have hmax : max (1 : Int) (s.B1.length : Int) = (s.B1.length : Int) := by
    rw [max_eq_right]
    exact_mod_cast hlen
  rw [hmax]

/-- The two-element-resident, one-ghost state reached by three insertions
under the byte budget: keys 2 and 3 resident, key 1 demoted to B1. -/
def stateF : CState Nat Nat :=
  runOps ifaceA cfgA
    [.findOrCreate 1 false, .findOrCreate 2 false, .findOrCreate 3 false]

theorem c6_witness :
    stateF.B1.find? (fun e' => e'.pageKey = 1) = some ⟨1, some 1, false, false, true⟩ ∧
    installEntry 2 1 (some 9) stateF =
      { stateF with
        p := min (stateF.p + max 1 (stateF.nS / max 1 (stateF.B1.length : Int))) (2 : Int),
        T1 := stateF.T1 ++ [⟨1, some 9, false, true, true⟩],
        nL := stateF.nL + 1,
        B1 := stateF.B1.eraseP (fun e' => e'.pageKey = 1) } :=
  ⟨by decide,
   c6_b1_ghost_hit 2 1 (some 9) stateF ⟨1, some 1, false, false, true⟩ (by decide) rfl⟩

/-! ### C5 — the T1 head sweep -/

theorem sweepT1Measure_rotate (s : CState K V) (e : Entry K V)
    (rest : List (Entry K V)) (hT1 : s.T1 = e :: rest) (he : e.referenceBit = true) :
    sweepT1Measure (sweepT1Rotate s e rest) + 1 = sweepT1Measure s := by
  unfold sweepT1Measure sweepT1Rotate
  dsimp only
  rw [hT1]
  simp [List.countP_append, List.countP_cons, he]
  omega

theorem sweepT1Measure_move (c : Nat) (s : CState K V) (e : Entry K V)
    (rest : List (Entry K V)) (hT1 : s.T1 = e :: rest) (he : e.referenceBit = false) :
    sweepT1Measure (sweepT1Move c s e rest) + 2 = sweepT1Measure s := by
  unfold sweepT1Measure sweepT1Move
  dsimp only
  rw [hT1]
  simp [List.countP_cons, he]
  omega

theorem sweepT1Go_nil (c fuel : Nat) (s : CState K V) (hT1 : s.T1 = []) :
    sweepT1Go c fuel s = s := by
  cases fuel with
  | zero => rfl
  | succ n =>
    rw [sweepT1Go]
    split
    · rfl
    · rename_i e rest heq
      rw [hT1] at heq
      cases heq

theorem sweepT1Measure_nilT1 (s : CState K V) (h : sweepT1Measure s = 0) :
    s.T1 = [] := by
  unfold sweepT1Measure at h
  cases hl : s.T1 with
  | nil => rfl
  | cons a l =>
    rw [hl] at h
    simp [List.length_cons] at h

theorem sweepT1Go_congr (c : Nat) : ∀ (f f' : Nat) (s : CState K V),
    sweepT1Measure s ≤ f → sweepT1Measure s ≤ f' →
    sweepT1Go c f s = sweepT1Go c f' s := by
  intro f
  induction f with
  | zero =>
    intro f' s h0 h'
    have hT1 := sweepT1Measure_nilT1 s (Nat.le_zero.1 h0)
    rw [sweepT1Go_nil c 0 s hT1, sweepT1Go_nil c f' s hT1]
  | succ n ih =>
    intro f' s hn h'
    cases f' with
    | zero =>
      have hT1 := sweepT1Measure_nilT1 s (Nat.le_zero.1 h')
      rw [sweepT1Go_nil c (n + 1) s hT1, sweepT1Go_nil c 0 s hT1]
    | succ m =>
      rw [sweepT1Go, sweepT1Go]
      split
      · rfl
      · rename_i e rest heq
        by_cases hg : (e.longBit || e.referenceBit) = true
        · rw [if_pos hg, if_pos hg]
          by_cases he : e.referenceBit = true
          · rw [if_pos he, if_pos he]
            have hm := sweepT1Measure_rotate s e rest heq he
            exact ih m _ (by omega) (by omega)
          · rw [if_neg he, if_neg he]
            have hm := sweepT1Measure_move c s e rest heq
              (by simpa using he)
            exact ih m _ (by omega) (by omega)
        · rw [if_neg hg, if_neg hg]

theorem sweepT1_rotate_step (c : Nat) (s : CState K V) (e : Entry K V)
    (rest : List (Entry K V)) (hT1 : s.T1 = e :: rest) (he : e.referenceBit = true) :
    sweepT1 c s = sweepT1 c (sweepT1Rotate s e rest) := by
  unfold sweepT1
  have hm := sweepT1Measure_rotate s e rest hT1 he
  rw [← hm]
  rw [sweepT1Go]
  split
  · rename_i heq
    rw [hT1] at heq
    cases heq
  · rename_i e' rest' heq
    rw [hT1] at heq
    injection heq with h1 h2
    subst h1
    subst h2
    rw [if_pos (by simp [he]), if_pos he]

theorem sweepT1_move_step (c : Nat) (s : CState K V) (e : Entry K V)
    (rest : List (Entry K V)) (hT1 : s.T1 = e :: rest)
    (hl : e.longBit = true) (he : e.referenceBit = false) :
    sweepT1 c s = sweepT1 c (sweepT1Move c s e rest) := by
  unfold sweepT1
  have hm := sweepT1Measure_move c s e rest hT1 he
  rw [← hm]
  rw [sweepT1Go]
  split
  · rename_i heq
    rw [hT1] at heq
    cases heq
  · rename_i e' rest' heq
    rw [hT1] at heq
    injection heq with h1 h2
    subst h1
    subst h2
    rw [if_pos (by simp [hl]), if_neg (by simp [he])]
    exact sweepT1Go_congr c _ _ _ (by omega) (by omega)

theorem sweepT1_stop_step (c : Nat) (s : CState K V) (e : Entry K V)
    (rest : List (Entry K V)) (hT1 : s.T1 = e :: rest)
    (hl : e.longBit = false) (he : e.referenceBit = false) :
    sweepT1 c s = s := by
  unfold sweepT1
  have hpos : ∃ k, sweepT1Measure s = k + 1 := by
    unfold sweepT1Measure
    rw [hT1]
    exact ⟨2 * rest.length + 1 + (e :: rest).countP (fun e => e.referenceBit), by
      simp [List.length_cons]; ring⟩
  obtain ⟨k, hk⟩ := hpos
  rw [hk]
  rw [sweepT1Go]
  split
  · rfl
  · rename_i e' rest' heq
    rw [hT1] at heq
    injection heq with h1 h2
    subst h1
    rw [if_neg (by simp [hl, he])]

/-- The rotation step exactly as claim C5 words it: rotate the front to
T1.back, clear the bit, and additionally promote the filter from Short to
Long (`nS--; nL++`) when `|T1| ≥ min(p+1, |B1|)` and the filter is Short. -/
def c5RotateSpec (s : CState K V) (e : Entry K V) (rest : List (Entry K V)) :
    CState K V :=
  if (s.T1.length : Int) ≥ min (s.p + 1) (s.B1.length : Int) ∧ e.longBit = false then
    { s with T1 := rest ++ [{ e with referenceBit := false, longBit := true }],
             nS := s.nS - 1, nL := s.nL + 1 }
  else
    { s with T1 := rest ++ [{ e with referenceBit := false }] }

/-- The move step exactly as claim C5 words it: move the front to T2.back
and set `q = max(q-1, c - |T1|)` (with `|T1|` the size after the removal). -/
def c5MoveSpec (c : Nat) (s : CState K V) (e : Entry K V)
    (rest : List (Entry K V)) : CState K V :=
  { s with T1 := rest,
           T2 := s.T2 ++ [{ e with referenceBit := false, firstList := false }],
           q := max (s.q - 1) ((c : Int) - (rest.length : Int)) }

theorem c5RotateSpec_eq (s : CState K V) (e : Entry K V)
    (rest : List (Entry K V)) (hT1 : s.T1 = e :: rest) :
    c5RotateSpec s e rest = sweepT1Rotate s e rest := by
  unfold c5RotateSpec sweepT1Rotate
  dsimp only
  by_cases hc : (s.T1.length : Int) ≥ min (s.p + 1) (s.B1.length : Int) ∧ e.longBit = false
  · rw [if_pos hc]
    obtain ⟨hc1, hc2⟩ := hc
    rw [hT1] at hc1
    have hp : (decide ((rest.length : Int) + 1 ≥ min (s.p + 1) (s.B1.length : Int))
        && !e.longBit) = true := by
      simp only [List.length_cons] at hc1
      push_cast at hc1
      simp [hc2]
      omega
    rw [hp]
    simp [hc2]
  · rw [if_neg hc]
    have hp : (decide ((rest.length : Int) + 1 ≥ min (s.p + 1) (s.B1.length : Int))
        && !e.longBit) = false := by
      by_cases hlb : e.longBit = true
      · simp [hlb]
      · have hA : ¬((s.T1.length : Int) ≥ min (s.p + 1) (s.B1.length : Int)) := by
          intro hA
          exact hc ⟨hA, by simpa using hlb⟩
        rw [hT1] at hA
        simp only [List.length_cons] at hA
        push_cast at hA
        simp
        intro h
        omega
    rw [hp]
    simp

theorem c5MoveSpec_eq (c : Nat) (s : CState K V) (e : Entry K V)
    (rest : List (Entry K V)) : c5MoveSpec c s e rest = sweepT1Move c s e rest :=
  rfl

/-- C5: the T1 head sweep of a full insertion loops while `|T1| > 0` and the
front entry is Long or referenced; a referenced front is rotated (with the
conditional Short→Long promotion), an unreferenced Long front moves to
T2.back with the `q` update — each iteration exactly as `c5RotateSpec` and
`c5MoveSpec` word the claim — and the loop stops on an empty T1 or an
unreferenced Short front. -/
theorem c5_t1_sweep (c : Nat) (s : CState K V) :
    (s.T1 = [] → sweepT1 c s = s) ∧
    (∀ e rest, s.T1 = e :: rest → e.longBit = false → e.referenceBit = false →
        sweepT1 c s = s) ∧
    (∀ e rest, s.T1 = e :: rest → e.referenceBit = true →
        sweepT1 c s = sweepT1 c (c5RotateSpec s e rest)) ∧
    (∀ e rest, s.T1 = e :: rest → e.longBit = true → e.referenceBit = false →
        sweepT1 c s = sweepT1 c (c5MoveSpec c s e rest)) := by
  refine ⟨fun h => sweepT1Go_nil c _ s h, ?_, ?_, ?_⟩
  · intro e rest hT1 hl he
    exact sweepT1_stop_step c s e rest hT1 hl he
  · intro e rest hT1 he
    rw [c5RotateSpec_eq s e rest hT1]
    exact sweepT1_rotate_step c s e rest hT1 he
  · intro e rest hT1 hl he
    rw [c5MoveSpec_eq]
    exact sweepT1_move_step c s e rest hT1 hl he

/-- A state whose T1 front is a referenced Short entry, for exercising the
rotation case of the sweep characterization. -/
def stateG : CState Nat Nat :=
  { T1 := [⟨1, some 1, true, false, true⟩, ⟨2, some 2, false, false, true⟩],
    T2 := [], B1 := [], B2 := [], p := 0, q := 0, nS := 2, nL := 0,
    usedMemory := 2, usage := fun _ _ => 1 }

theorem c5_witness :
    stateG.T1 = ⟨1, some 1, true, false, true⟩ :: [⟨2, some 2, false, false, true⟩] ∧
    sweepT1 3 stateG =
      sweepT1 3 (c5RotateSpec stateG ⟨1, some 1, true, false, true⟩
        [⟨2, some 2, false, false, true⟩]) :=
  ⟨by decide,
   (c5_t1_sweep 3 stateG).2.2.1 ⟨1, some 1, true, false, true⟩
     [⟨2, some 2, false, false, true⟩] (by decide) rfl⟩

/-! ### C4 — ghost trim and the `|B1|+|B2| ≤ c+1` bound -/

/-- The `firstList` flag of every ghost node names its list. -/
def ghostListInv (s : CState K V) : Prop :=
  (∀ e ∈ s.B1, e.firstList = true) ∧ (∀ e ∈ s.B2, e.firstList = false)

theorem gFind_of_eq {s t : CState K V} (h1 : s.B1 = t.B1) (h2 : s.B2 = t.B2)
    (key : K) : gFind s key = gFind t key := by
  unfold gFind
  rw [h1, h2]

theorem ghostListInv_of_eq {s t : CState K V} (h1 : s.B1 = t.B1)
    (h2 : s.B2 = t.B2) (h : ghostListInv t) : ghostListInv s := by
  unfold ghostListInv
  rw [h1, h2]
  exact h

theorem sweepT2_B (c : Nat) (s : CState K V) :
    (sweepT2 c s).B1 = s.B1 ∧ (sweepT2 c s).B2 = s.B2 :=
  ⟨sweepT2Go_B1 c s.T2.length s, sweepT2Go_B2 c s.T2.length s⟩

theorem sweepT1_B (c : Nat) (s : CState K V) :
    (sweepT1 c s).B1 = s.B1 ∧ (sweepT1 c s).B2 = s.B2 :=
  ⟨sweepT1Go_B1 c (sweepT1Measure s) s, sweepT1Go_B2 c (sweepT1Measure s) s⟩

theorem sweepT2Go_keys (c fuel : Nat) (s : CState K V) (key : K)
    (h1 : ∀ e ∈ s.T1, e.pageKey ≠ key) (h2 : ∀ e ∈ s.T2, e.pageKey ≠ key) :
    (∀ e ∈ (sweepT2Go c fuel s).T1, e.pageKey ≠ key) ∧
    (∀ e ∈ (sweepT2Go c fuel s).T2, e.pageKey ≠ key) := by
  induction fuel generalizing s with
  | zero => exact ⟨h1, h2⟩
  | succ n ih =>
    rw [sweepT2Go]
    split
    · exact ⟨h1, h2⟩
    · rename_i e rest hT2
      split
      · refine ih _ (fun e' he' => ?_) (fun e' he' => ?_)
        · rcases List.mem_append.1 he' with h | h
          · exact h1 e' h
          · simp only [List.mem_singleton] at h
            subst h
            exact h2 e (by rw [hT2]; exact List.mem_cons_self _ _)
        · exact h2 e' (by rw [hT2]; exact List.mem_cons_of_mem _ he')
      · exact ⟨h1, h2⟩

theorem sweepT1Go_keys (c fuel : Nat) (s : CState K V) (key : K)
    (h1 : ∀ e ∈ s.T1, e.pageKey ≠ key) (h2 : ∀ e ∈ s.T2, e.pageKey ≠ key) :
    (∀ e ∈ (sweepT1Go c fuel s).T1, e.pageKey ≠ key) ∧
    (∀ e ∈ (sweepT1Go c fuel s).T2, e.pageKey ≠ key) := by
  induction fuel generalizing s with
  | zero => exact ⟨h1, h2⟩
  | succ n ih =>
    rw [sweepT1Go]
    split
    · exact ⟨h1, h2⟩
    · rename_i e rest hT1
      split
      · split
        · refine ih _ (fun e' he' => ?_) h2
          unfold sweepT1Rotate at he'
          dsimp only at he'
          rcases List.mem_append.1 he' with h | h
          · exact h1 e' (by rw [hT1]; exact List.mem_cons_of_mem _ h)
          · simp only [List.mem_singleton] at h
            subst h
            exact h1 e (by rw [hT1]; exact List.mem_cons_self _ _)
        · refine ih _ (fun e' he' => ?_) (fun e' he' => ?_)
          · unfold sweepT1Move at he'
            dsimp only at he'
            exact h1 e' (by rw [hT1]; exact List.mem_cons_of_mem _ he')
          · unfold sweepT1Move at he'
            dsimp only at he'
            rcases List.mem_append.1 he' with h | h
            · exact h2 e' h
            · simp only [List.mem_singleton] at h
              subst h
              exact h1 e (by rw [hT1]; exact List.mem_cons_self _ _)
      · exact ⟨h1, h2⟩

theorem demote_bsum (I : Iface K V) (s : CState K V) :
    (demote I s).B1.length + (demote I s).B2.length
      ≤ s.B1.length + s.B2.length + 1 := by
  unfold demote demoteT2half
  split
  · dsimp only
    simp only [List.length_cons]
    omega
  · split
    · dsimp only
      simp only [List.length_cons]
      omega
    · omega

theorem demote_gFind (I : Iface K V) (s : CState K V) (key : K)
    (h1 : ∀ e ∈ s.T1, e.pageKey ≠ key) (h2 : ∀ e ∈ s.T2, e.pageKey ≠ key) :
    gFind (demote I s) key = gFind s key := by
  unfold demote demoteT2half
  split
  · rename_i e hfind
    have he : s.T1.find? (fun e => s.usage e.pageKey e.page ≤ 1) = some e := by
      by_cases hc : (s.T1.length : Int) ≥ max 1 s.p
      · rwa [if_pos hc] at hfind
      · rw [if_neg hc] at hfind
        exact absurd hfind (by simp)
    have hmem := List.mem_of_find?_eq_some he
    unfold gFind
    dsimp only
    rw [List.cons_append, List.find?_cons_of_neg]
    simp [h1 e hmem]
  · split
    · rename_i e he
      have hmem := List.mem_of_find?_eq_some he
      unfold gFind
      dsimp only
      rw [List.find?_append, List.find?_append, List.find?_cons_of_neg]
      simp [h2 e hmem]
    · rfl

theorem demote_ghostListInv (I : Iface K V) (s : CState K V)
    (hl : listInv s) (hg : ghostListInv s) : ghostListInv (demote I s) := by
  unfold demote demoteT2half
  split
  · rename_i e hfind
    have he : s.T1.find? (fun e => s.usage e.pageKey e.page ≤ 1) = some e := by
      by_cases hc : (s.T1.length : Int) ≥ max 1 s.p
      · rwa [if_pos hc] at hfind
      · rw [if_neg hc] at hfind
        exact absurd hfind (by simp)
    have hmem := List.mem_of_find?_eq_some he
    refine ⟨fun e' he' => ?_, hg.2⟩
    rcases List.mem_cons.1 he' with h | h
    · rw [h]
      exact hl.1 e hmem
    · exact hg.1 e' h
  · split
    · rename_i e he
      have hmem := List.mem_of_find?_eq_some he
      refine ⟨hg.1, fun e' he' => ?_⟩
      rcases List.mem_cons.1 he' with h | h
      · rw [h]
        exact hl.2 e hmem
      · exact hg.2 e' h
    · exact hg

theorem ghostTrim_eq_self (c : Nat) (key : K) (s : CState K V)
    (h : ¬(gFind s key = none ∧ s.B1.length + s.B2.length ≥ c + 1)) :
    ghostTrim c key s = s := by
  unfold ghostTrim
  rw [if_neg h]

theorem ghostTrim_bsum (c : Nat) (key : K) (s : CState K V)
    (h1 : gFind s key = none) (h2 : s.B1.length + s.B2.length ≥ c + 1) :
    (ghostTrim c key s).B1.length + (ghostTrim c key s).B2.length + 1
      = s.B1.length + s.B2.length := by
  unfold ghostTrim
  rw [if_pos ⟨h1, h2⟩]
  split
  · rename_i hcond
    dsimp only
    rw [List.length_dropLast]
    have hpos : 1 ≤ s.B1.length := by
      rcases hcond with h | h
      · have h0 : (0 : Int) ≤ max 0 s.q := le_max_left 0 s.q
        omega
      · omega
    omega
  · split
    · rename_i h3
      dsimp only
      rw [List.length_dropLast]
      omega
    · rename_i hcond h3
      exfalso
      have hne : s.B2.length ≠ 0 := fun h0 => hcond (Or.inr h0)
      omega

theorem ghostTrim_gFind_none (c : Nat) (key : K) (s : CState K V)
    (h : gFind s key = none) : gFind (ghostTrim c key s) key = none := by
  have hall := List.find?_eq_none.1 h
  unfold ghostTrim
  split
  · split
    · unfold gFind
      dsimp only
      refine List.find?_eq_none.2 (fun e he => ?_)
      rcases List.mem_append.1 he with h' | h'
      · exact hall e (List.mem_append_left _ (List.dropLast_subset _ h'))
      · exact hall e (List.mem_append_right _ h')
    · split
      · unfold gFind
        dsimp only
        refine List.find?_eq_none.2 (fun e he => ?_)
        rcases List.mem_append.1 he with h' | h'
        · exact hall e (List.mem_append_left _ h')
        · exact hall e (List.mem_append_right _ (List.dropLast_subset _ h'))
      · exact h
  · exact h

theorem installEntry_B_miss (c : Nat) (key : K) (value : Option V)
    (s : CState K V) (h : gFind s key = none) :
    (installEntry c key value s).B1 = s.B1 ∧
    (installEntry c key value s).B2 = s.B2 := by
  unfold installEntry
  rw [h]
  exact ⟨rfl, rfl⟩

theorem installEntry_bsum_hit (c : Nat) (key : K) (value : Option V)
    (s : CState K V) (e : Entry K V) (h : gFind s key = some e)
    (hgl : ghostListInv s) :
    (installEntry c key value s).B1.length + (installEntry c key value s).B2.length + 1
      = s.B1.length + s.B2.length := by
  have hk : e.pageKey = key := by simpa using List.find?_some h
  have hmem : e ∈ s.B1 ++ s.B2 := List.mem_of_find?_eq_some h
  unfold installEntry
  rw [h]
  dsimp only
  by_cases hf : e.firstList = true
  · rw [if_pos hf]
    have heB1 : e ∈ s.B1 := by
      rcases List.mem_append.1 hmem with h' | h'
      · exact h'
      · exact absurd (hgl.2 e h') (by simp [hf])
    have hlen := @List.length_eraseP_add_one _
      (fun e' : Entry K V => decide (e'.pageKey = key)) s.B1 e heB1 (by simp [hk])
    dsimp only
    omega
  · rw [if_neg hf]
    have heB2 : e ∈ s.B2 := by
      rcases List.mem_append.1 hmem with h' | h'
      · exact absurd (hgl.1 e h') (by simpa using hf)
      · exact h'
    have hlen := @List.length_eraseP_add_one _
      (fun e' : Entry K V => decide (e'.pageKey = key)) s.B2 e heB2 (by simp [hk])
    dsimp only
    omega

theorem installEntry_bsum_le (c : Nat) (key : K) (value : Option V)
    (s : CState K V) :
    (installEntry c key value s).B1.length + (installEntry c key value s).B2.length
      ≤ s.B1.length + s.B2.length := by
  unfold installEntry
  cases hg : gFind s key with
  | none => dsimp only; omega
  | some e =>
    dsimp only
    split
    · dsimp only
      have := List.Sublist.length_le (@List.eraseP_sublist _
        (fun e' : Entry K V => decide (e'.pageKey = key)) s.B1)
      omega
    · dsimp only
      have := List.Sublist.length_le (@List.eraseP_sublist _
        (fun e' : Entry K V => decide (e'.pageKey = key)) s.B2)
      omega

theorem mkHandle_B1 (s : CState K V) (key : K) (value : Option V) :
    (mkHandle s key value).1.B1 = s.B1 :=
  (mkHandle_policyEq s key value).2.2.1

theorem mkHandle_B2 (s : CState K V) (key : K) (value : Option V) :
    (mkHandle s key value).1.B2 = s.B2 :=
  (mkHandle_policyEq s key value).2.2.2.1

/-- The history-replacement step exactly as claim C4 words it: when the key
has no ghost entry and `|B1| + |B2| ≥ c + 1`, pop B1.back if
`|B1| > max(0, q)` or `|B2| = 0`, otherwise pop B2.back. -/
def ghostTrimSpec (c : Nat) (key : K) (s : CState K V) : CState K V :=
  if gFind s key = none ∧ s.B1.length + s.B2.length ≥ c + 1 then
    if (s.B1.length : Int) > max 0 s.q ∨ s.B2.length = 0 then
      { s with B1 := s.B1.dropLast }
    else
      { s with B2 := s.B2.dropLast }
  else s

theorem ghostTrim_eq_spec (c : Nat) (key : K) (s : CState K V) :
    ghostTrim c key s = ghostTrimSpec c key s := by
  unfold ghostTrim ghostTrimSpec
  split
  · split
    · rfl
    · rename_i hP hcond
      rw [if_pos]
      have : s.B2.length ≠ 0 := fun h0 => hcond (Or.inr h0)
      omega
  · rfl

theorem pipeline_bsum (I : Iface K V) (c : Nat) (key : K) (value : Option V)
    (s1 : CState K V)
    (hk1 : ∀ e ∈ s1.T1, e.pageKey ≠ key) (hk2 : ∀ e ∈ s1.T2, e.pageKey ≠ key)
    (hl : listInv s1) (hgl : ghostListInv s1)
    (hb : s1.B1.length + s1.B2.length ≤ c + 1) :
    (installEntry c key value (ghostTrim c key
        (demote I (sweepT1 c (sweepT2 c s1))))).B1.length
      + (installEntry c key value (ghostTrim c key
          (demote I (sweepT1 c (sweepT2 c s1))))).B2.length ≤ c + 1 := by
  have hswB1 : (sweepT1 c (sweepT2 c s1)).B1 = s1.B1 := by
    rw [(sweepT1_B c (sweepT2 c s1)).1, (sweepT2_B c s1).1]
  have hswB2 : (sweepT1 c (sweepT2 c s1)).B2 = s1.B2 := by
    rw [(sweepT1_B c (sweepT2 c s1)).2, (sweepT2_B c s1).2]
  obtain ⟨ha1, ha2⟩ := sweepT2Go_keys c s1.T2.length s1 key hk1 hk2
  obtain ⟨hc1, hc2⟩ := sweepT1Go_keys c (sweepT1Measure (sweepT2 c s1))
    (sweepT2 c s1) key ha1 ha2
  have hlsw : listInv (sweepT1 c (sweepT2 c s1)) :=
    sweepT1_listInv c _ (sweepT2_listInv c s1 hl)
  have hglsw : ghostListInv (sweepT1 c (sweepT2 c s1)) :=
    ghostListInv_of_eq hswB1 hswB2 hgl
  set sd := demote I (sweepT1 c (sweepT2 c s1)) with hsd
  have hdb : sd.B1.length + sd.B2.length ≤ s1.B1.length + s1.B2.length + 1 := by
    have h := demote_bsum I (sweepT1 c (sweepT2 c s1))
    rw [hswB1, hswB2] at h
    exact h
  have hdg : gFind sd key = gFind s1 key := by
    have h := demote_gFind I (sweepT1 c (sweepT2 c s1)) key hc1 hc2
    rw [gFind_of_eq hswB1 hswB2 key] at h
    exact h
  have hgld : ghostListInv sd := demote_ghostListInv I _ hlsw hglsw
  by_cases hg : gFind s1 key = none
  · by_cases hbs : sd.B1.length + sd.B2.length ≥ c + 1
    · have ht := ghostTrim_bsum c key sd (by rw [hdg]; exact hg) hbs
      have htg := ghostTrim_gFind_none c key sd (by rw [hdg]; exact hg)
      obtain ⟨hi1, hi2⟩ := installEntry_B_miss c key value (ghostTrim c key sd) htg
      rw [hi1, hi2]
      omega
    · have ht := ghostTrim_eq_self c key sd (fun hx => hbs hx.2)
      rw [ht]
      have htg : gFind sd key = none := by rw [hdg]; exact hg
      obtain ⟨hi1, hi2⟩ := installEntry_B_miss c key value sd htg
      rw [hi1, hi2]
      omega
  · obtain ⟨g, hgq⟩ : ∃ g, gFind s1 key = some g := by
      cases hq : gFind s1 key with
      | none => exact absurd hq hg
      | some g => exact ⟨g, rfl⟩
    have ht := ghostTrim_eq_self c key sd (fun hx => by
      have h1 := hx.1
      rw [hdg, hgq] at h1
      cases h1)
    rw [ht]
    have hgsd : gFind sd key = some g := by rw [hdg]; exact hgq
    have hi := installEntry_bsum_hit c key value sd g hgsd hgld
    omega

theorem insertMiss_bsum (I : Iface K V) (cfg : Config) (s : CState K V)
    (key : K) (value : Option V) (hr : rFind s key = none) (hl : listInv s)
    (hgl : ghostListInv s)
    (hb : s.B1.length + s.B2.length ≤ effCapacity cfg s + 1) :
    (insertMiss I cfg s key value).1.B1.length
      + (insertMiss I cfg s key value).1.B2.length
      ≤ effCapacity cfg s + 1 := by
  have hk1 : ∀ e ∈ s.T1, e.pageKey ≠ key := by
    intro e he hkk
    have h := List.find?_eq_none.1 hr e (List.mem_append_left _ he)
    simp [hkk] at h
  have hk2 : ∀ e ∈ s.T2, e.pageKey ≠ key := by
    intro e he hkk
    have h := List.find?_eq_none.1 hr e (List.mem_append_right _ he)
    simp [hkk] at h
  unfold insertMiss
  dsimp only
  rw [mkHandle_B1, mkHandle_B2]
  dsimp only
  split
  · exact pipeline_bsum I (effCapacity cfg (incUsage s key value)) key value
      (incUsage s key value) hk1 hk2
      (policyEq_listInv (incUsage_policyEq s key value) hl)
      (ghostListInv_of_eq rfl rfl hgl) hb
  · have h := installEntry_bsum_le (effCapacity cfg (incUsage s key value))
      key value (incUsage s key value)
    exact le_trans h hb

/-- C4, amended: the history-replacement (ghost-trim) step runs only inside
insertions performed on a full cache; there it runs exactly when the key
has no ghost entry and `|B1| + |B2| ≥ c + 1`, popping B1.back when
`|B1| > max(0, q)` or `|B2| = 0` and otherwise popping B2.back (first
conjunct, `ghostTrim` against the claim-worded `ghostTrimSpec`).  The bound
`|B1| + |B2| ≤ c + 1` is only preserved insertion-by-insertion relative to
that insertion's captured capacity: every insertion whose starting state
satisfies the bound re-establishes it (second conjunct); it is not a global
invariant, because insertions on a non-full cache never trim (see the
counterexample). -/
theorem c4_amended_trim_and_bound (I : Iface K V) (cfg : Config)
    (s : CState K V) (key : K) (supplied : Option V)
    (hl : listInv s) (hgl : ghostListInv s)
    (hb : s.B1.length + s.B2.length ≤ effCapacity cfg s + 1) :
    ghostTrim (effCapacity cfg s) key s = ghostTrimSpec (effCapacity cfg s) key s ∧
    (internalInsert I cfg s key supplied).1.B1.length
      + (internalInsert I cfg s key supplied).1.B2.length
      ≤ effCapacity cfg s + 1 := by
  refine ⟨ghostTrim_eq_spec _ _ _, ?_⟩
  unfold internalInsert
  cases hr : rFind s key with
  | some e =>
    dsimp only
    rw [mkHandle_B1, mkHandle_B2]
    exact hb
  | none =>
    dsimp only
    exact insertMiss_bsum I cfg s key _ hr hl hgl hb

/-- Loader for the C4 counterexample: keys 1–3 load 6-byte values, later
keys 1-byte values. -/
def iface4 : Iface Nat Nat :=
  { acquire := fun k => some k,
    getValueSize := fun v => match v with
                             | none => 0
                             | some v => if v ≤ 3 then 6 else 1 }

/-- Byte budget only (10 bytes), no element limit. -/
def cfg4 : Config := ⟨0, 10⟩

/-- Keys 1 and 2 fill the byte budget; the insertions of keys 3 and 4 run
full and demote them, building two ghosts; the resident set is then worth
only 7 bytes, so the cache is no longer full. -/
def state4 : CState Nat Nat :=
  runOps iface4 cfg4
    [.findOrCreate 1 false, .findOrCreate 2 false, .findOrCreate 3 false,
     .findOrCreate 4 false]

/-- `state4` after one more (non-full) insertion. -/
def state5 : CState Nat Nat :=
  runOps iface4 cfg4
    [.findOrCreate 1 false, .findOrCreate 2 false, .findOrCreate 3 false,
     .findOrCreate 4 false, .findOrCreate 5 false]

/-- C4, counterexample.  The insertion of key 5 starts from `state4`, which
is not full, so its effective capacity is `c = maxNumElements = 0`.  The
key has no ghost entry and `|B1| + |B2| = 2 ≥ c + 1 = 1`, so the claim says
the ghost-trim runs — but the trim is inside the `IsFull()` branch and the
ghost lists are untouched; and after the complete insertion
`|B1| + |B2| = 2` still exceeds `c + 1 = 1`. -/
theorem c4_counterexample :
    ¬ isFull cfg4 state4 ∧
    gFind state4 5 = none ∧
    state4.B1.length + state4.B2.length ≥ effCapacity cfg4 state4 + 1 ∧
    state5.B1 = state4.B1 ∧ state5.B2 = state4.B2 ∧
    state5.B1.length + state5.B2.length > effCapacity cfg4 state4 + 1 := by
  refine ⟨by decide, by decide, by decide, by decide, by decide, by decide⟩

theorem c4_witness :
    listInv stateA ∧ ghostListInv stateA ∧
    stateA.B1.length + stateA.B2.length ≤ effCapacity cfgA stateA + 1 ∧
    (ghostTrim (effCapacity cfgA stateA) 3 stateA
        = ghostTrimSpec (effCapacity cfgA stateA) 3 stateA ∧
      (internalInsert ifaceA cfgA stateA 3 none).1.B1.length
        + (internalInsert ifaceA cfgA stateA 3 none).1.B2.length
        ≤ effCapacity cfgA stateA + 1) := by
  have hl : listInv stateA := by
    unfold listInv
    decide
  have hgl : ghostListInv stateA := by
    unfold ghostListInv
    decide
  exact ⟨hl, hgl, by decide,
    c4_amended_trim_and_bound ifaceA cfgA stateA 3 none hl hgl (by decide)⟩

end CART
